import Mathlib

/-!
# A verification model of the observatory conflict bot

This file is a shallow embedding, in Lean, of the core of the `observatory`
service: the conflict classifier (`compare_pulls`), the per-repository
conflict store (`Storage`), the pull-request cache (`Memory`), the comment
header codec (`CommentHeader`), and the controller routines
(`refresh_conflicts`, `send_updates`, `finalize_pull`).

Modelling conventions, used throughout:

* Rust `i32`/`i64` fields carry no arithmetic here (they are only compared
  for equality and order), so they are embedded as `Int`.
* `chrono::DateTime<Utc>` timestamps are embedded as `Int` (a totally
  ordered instant; only `≤`/`<` comparisons occur in the source).
* Rust `HashMap`s are embedded as association lists.  Lookup takes the
  first binding; removal drops every binding of the key and replacement
  rewrites every binding of the key, so that on lists with distinct keys —
  the only states a `HashMap` can denote — the operations agree with the
  map semantics without carrying a separate well-formedness invariant.
* A Rust function that can panic (an `unwrap` on a missing value) is
  embedded with an `Option` result; `none` is the panic.
* Strings are manipulated through their character lists, with explicit
  recursive helpers, so that every definition evaluates inside the kernel.
-/

namespace Observatory

/-! ## Character-list string helpers

`std::path` operations and the string operations of the source
(`starts_with`, `ends_with`, `contains`, splitting on a separator) are
modelled on `List Char`.  Path separator handling mirrors `std::path::Path`
on the canonical relative paths that appear in unified diffs (components
joined by single `/`); the byte-level normalisation Rust applies to
degenerate paths (repeated or trailing separators) is not reproduced. -/

/-- `needle.isPrefixOf hay` on character lists (`str::starts_with`). -/
def leadsWith : List Char → List Char → Bool
  | [], _ => true
  | _ :: _, [] => false
  | n :: ns, h :: hs => n = h && leadsWith ns hs

/-- `str::ends_with` on character lists. -/
def trailsWith (needle hay : List Char) : Bool :=
  leadsWith needle.reverse hay.reverse

/-- `str::contains` (substring search) on character lists. -/
def hasSub (hay needle : List Char) : Bool :=
  match hay with
  | [] => needle.isEmpty
  | _ :: t => leadsWith needle hay || hasSub t needle

/-- Split a character list on a separator character.  Always returns a
nonempty list of separator-free components. -/
def splitSep (c : Char) : List Char → List (List Char)
  | [] => [[]]
  | x :: xs =>
    match splitSep c xs with
    | [] => [[]]
    | h :: t => if x = c then [] :: h :: t else (x :: h) :: t

/-- Join components with a separator character (inverse of `splitSep`). -/
def joinSep (c : Char) : List (List Char) → List Char
  | [] => []
  | [x] => x
  | x :: xs => x ++ c :: joinSep c xs

/-! ## Path decoding (`std::path::Path` on diff paths)

`Path::file_name` / `file_stem` / `parent`, specialised to the `/`-separated
relative paths of a unified diff. -/

/-- `Path::file_name`: the final component, or `none` for an empty path or
one ending in `..`. -/
def fileNameC (s : List Char) : Option (List Char) :=
  match ((splitSep '/' s).filter (fun comp => comp ≠ [] && comp ≠ ['.'])).getLast? with
  | none => none
  | some comp => if comp = ['.', '.'] then none else some comp

/-- Position of the last occurrence of `c` in `l`, if any. -/
def lastIdxOf (c : Char) (l : List Char) : Option Nat :=
  match l.reverse.findIdx? (· = c) with
  | none => none
  | some i => some (l.length - 1 - i)

/-- `Path::file_stem` applied to a file name: the portion before the final
dot, the whole name when there is no dot or only a leading one. -/
def stemOfName (b : List Char) : List Char :=
  match lastIdxOf '.' b with
  | none => b
  | some 0 => b
  | some i => b.take i

/-- `Path::file_stem().unwrap()` of a whole path, totalised: the stem of the
final component (`[]` stands for the panic on a stemless path, which no
regex-accepted article path reaches). -/
def fileStemC (s : List Char) : List Char :=
  match fileNameC s with
  | none => []
  | some b => stemOfName b

/-- `Path::parent().unwrap().to_str()`: the path with its final component
removed, components rejoined with `/`. -/
def parentC (s : List Char) : List Char :=
  joinSep '/' (splitSep '/' s).dropLast

/-! ## Articles (src/helpers/conflicts.rs, `Article`) -/

/-- A lightweight article wrapper: the directory of the article and the
language of the concrete file (`Article` in src/helpers/conflicts.rs). -/
structure Article where
  path : String
  language : String
deriving DecidableEq

namespace Article

/-- `Article::from_file_path`: the language is the file stem, the path is
the parent directory. -/
def from_file_path (s : String) : Article :=
  { path := ⟨parentC s.data⟩, language := ⟨fileStemC s.data⟩ }

/-- `Article::original_file_path`. -/
def original_file_path (a : Article) : String :=
  ⟨a.path.data ++ ('/' :: "en.md".data)⟩

/-- `Article::file_path`. -/
def file_path (a : Article) : String :=
  ⟨a.path.data ++ ('/' :: a.language.data) ++ ".md".data⟩

/-- `Article::is_original`. -/
def is_original (a : Article) : Bool := a.language = "en"

/-- `Article::is_translation`. -/
def is_translation (a : Article) : Bool := !a.is_original

end Article

/-! ## Diff files (the `unidiff` patched-file model) -/

/-- One patched file of a unified diff (`unidiff::PatchedFile`), reduced to
the two path fields the classifier reads. -/
structure PatchedFile where
  source_file : String
  target_file : String
deriving DecidableEq

/-- A parsed diff is its ordered list of patched files
(`unidiff::PatchSet::files`). -/
abbrev Diff := List PatchedFile

/-- `unidiff::PatchedFile::path`: strip the `a/` / `b/` prefixes, prefer the
target side, fall back across `/dev/null`. -/
def PatchedFile.path (p : PatchedFile) : String :=
  if leadsWith "a/".data p.source_file.data && leadsWith "b/".data p.target_file.data then
    ⟨p.source_file.data.drop 2⟩
  else if leadsWith "a/".data p.source_file.data && p.target_file = "/dev/null" then
    ⟨p.source_file.data.drop 2⟩
  else if leadsWith "b/".data p.target_file.data && p.source_file = "/dev/null" then
    ⟨p.target_file.data.drop 2⟩
  else p.source_file

/-- The article file-name regex of `compare_pulls`,
`^(..|..-..)\.md$`: a two-letter or `xx-yy` stem followed by `.md`
(`.` matches any character but a newline). -/
def articleNameMatch (name : List Char) : Bool :=
  match name with
  | [c1, c2, '.', 'm', 'd'] => c1 ≠ '\n' && c2 ≠ '\n'
  | [c1, c2, '-', c3, c4, '.', 'm', 'd'] =>
    c1 ≠ '\n' && c2 ≠ '\n' && c3 ≠ '\n' && c4 ≠ '\n'
  | _ => false

/-- The `article_filter` closure of `compare_pulls`: check the regex against
the file name of the target side, or of the source side for a deletion. -/
def article_filter (p : PatchedFile) : Bool :=
  let file_to_check :=
    if hasSub p.target_file.data "/dev/null".data then p.source_file else p.target_file
  match fileNameC file_to_check.data with
  | some n => articleNameMatch n
  | none => false

/-! ## Conflicts (src/helpers/conflicts.rs) -/

/-- The two kinds of pull conflicts (`ConflictType`). -/
inductive ConflictType
  | Overlap
  | IncompleteTranslation
deriving DecidableEq

/-- The derived Rust `Ord` on `ConflictType`: declaration order. -/
def ConflictType.rank : ConflictType → Nat
  | .Overlap => 0
  | .IncompleteTranslation => 1

/-- A conflict between two pull requests (`Conflict`): its kind, the pull
to notify (`trigger`), the authoritative pull (`original`), the URL of the
original, and the sorted list of conflicting files. -/
structure Conflict where
  kind : ConflictType
  trigger : Int
  original : Int
  reference_url : String
  file_set : List String
deriving DecidableEq

/-- `Conflict::overlap`. -/
def Conflict.overlap (trigger original : Int) (reference_url : String)
    (file_set : List String) : Conflict :=
  { kind := .Overlap, trigger, original, reference_url, file_set }

/-- `Conflict::incomplete_translation`. -/
def Conflict.incomplete_translation (trigger original : Int) (reference_url : String)
    (file_set : List String) : Conflict :=
  { kind := .IncompleteTranslation, trigger, original, reference_url, file_set }

/-! Byte-lexicographic string order (Rust's `Ord` on `String`; UTF-8 byte
order coincides with code-point order) and the derived lexicographic order
on `Conflict`, used by `Vec::sort` and `BTreeSet`. -/

/-- Strict code-point lexicographic order on character lists. -/
def charsLt : List Char → List Char → Bool
  | [], [] => false
  | [], _ :: _ => true
  | _ :: _, [] => false
  | a :: as, b :: bs =>
    if a.toNat < b.toNat then true
    else if b.toNat < a.toNat then false
    else charsLt as bs

/-- Rust's `String` order. -/
def strLtB (a b : String) : Bool := charsLt a.data b.data

/-- Lexicographic order on `Vec<String>`. -/
def listStrLt : List String → List String → Bool
  | [], [] => false
  | [], _ :: _ => true
  | _ :: _, [] => false
  | a :: as, b :: bs => if strLtB a b then true else if strLtB b a then false else listStrLt as bs

/-- The derived Rust `Ord` on `Conflict`: lexicographic in declaration
order of the fields. -/
def conflictLt (a b : Conflict) : Bool :=
  if a.kind.rank < b.kind.rank then true
  else if b.kind.rank < a.kind.rank then false
  else if a.trigger < b.trigger then true
  else if b.trigger < a.trigger then false
  else if a.original < b.original then true
  else if b.original < a.original then false
  else if strLtB a.reference_url b.reference_url then true
  else if strLtB b.reference_url a.reference_url then false
  else listStrLt a.file_set b.file_set

/-- Insert into a list sorted by `lt`, before the first larger element. -/
def insSorted {α : Type} (lt : α → α → Bool) (x : α) : List α → List α
  | [] => [x]
  | y :: ys => if lt y x then y :: insSorted lt x ys else x :: y :: ys

/-- `Vec::sort` (insertion sort; agrees with any comparison sort on the
at-most-two-element lists it is applied to here). -/
def sortBy {α : Type} (lt : α → α → Bool) (l : List α) : List α :=
  l.foldr (insSorted lt) []

/-- `BTreeSet<String>::insert`: sorted-set insertion, no duplicates. -/
def setInsert (x : String) : List String → List String
  | [] => [x]
  | y :: ys =>
    if strLtB x y then x :: y :: ys
    else if strLtB y x then y :: setInsert x ys
    else y :: ys

/-- Collect a list of strings into a `BTreeSet`: sorted and deduplicated. -/
def setOfList (l : List String) : List String :=
  l.foldl (fun acc x => setInsert x acc) []

/-! ## Pull requests (src/structs.rs) -/

/-- A forge user (`Actor`). -/
structure Actor where
  id : Int
  login : String
deriving DecidableEq

/-- A pull request (`PullRequest`), with timestamps as instants and the
optional parsed diff. -/
structure PullRequest where
  id : Int
  number : Int
  state : String
  title : String
  user : Actor
  html_url : String
  created_at : Int
  updated_at : Int
  diff : Option Diff
  merged_at : Option Int
  merged : Bool
deriving DecidableEq

/-- `PullRequest::is_merged`. -/
def PullRequest.is_merged (p : PullRequest) : Bool :=
  p.merged || p.merged_at.isSome

/-! ## The classifier, `compare_pulls` (src/helpers/conflicts.rs) -/

/-- The loop state of `compare_pulls`: the two `BTreeSet`s and the
role flag. -/
structure CmpState where
  overlaps : List String
  originals : List String
  is_new_translation : Bool
deriving DecidableEq

/-- The body of the inner loop of `compare_pulls`: classify one pair of
article paths and update the loop state. -/
def cmpStep (other_files : List String) (incomingPath : String) (st : CmpState)
    (other : String) : CmpState :=
  let new_article := Article.from_file_path incomingPath
  let other_article := Article.from_file_path other
  if new_article.path ≠ other_article.path then st
  else
    let translation_only_change :=
      new_article.is_translation && !(other_files.contains new_article.original_file_path)
    if new_article = other_article && (new_article.is_original || translation_only_change) then
      { st with overlaps := setInsert new_article.file_path st.overlaps }
    else if new_article.is_original && other_article.is_translation then
      { st with originals := setInsert new_article.file_path st.originals }
    else if other_article.is_original && new_article.is_translation then
      { st with originals := setInsert other_article.file_path st.originals,
                is_new_translation := true }
    else st

/-- The `other_files` set of `compare_pulls`: the other diff's article
paths collected into a `BTreeSet`. -/
def otherFilesOf (other_diff : Diff) : List String :=
  setOfList ((other_diff.filter article_filter).map PatchedFile.path)

/-- The nested loops of `compare_pulls`, as a fold over the filtered
incoming files and the other side's path set. -/
def cmpFold (new_diff other_diff : Diff) : CmpState :=
  (new_diff.filter article_filter).foldl
    (fun st incoming =>
      (otherFilesOf other_diff).foldl (cmpStep (otherFilesOf other_diff) incoming.path) st)
    ⟨[], [], false⟩

/-- `compare_pulls` on the two unwrapped diffs: filter both sides to
article files, run the nested loops, and emit at most one `Overlap` and at
most one `IncompleteTranslation` conflict, sorted. -/
def comparePullsOn (new_pull other_pull : PullRequest) (new_diff other_diff : Diff) :
    List Conflict :=
  let st := cmpFold new_diff other_diff
  let out :=
    (if st.overlaps.isEmpty then [] else
      [Conflict.overlap new_pull.number other_pull.number other_pull.html_url st.overlaps]) ++
    (if st.originals.isEmpty then [] else
      let trigger_original :=
        if st.is_new_translation then (new_pull, other_pull) else (other_pull, new_pull)
      [Conflict.incomplete_translation trigger_original.1.number trigger_original.2.number
        trigger_original.2.html_url st.originals])
  sortBy conflictLt out

/-- `compare_pulls` itself: both diffs are unwrapped unconditionally, so a
missing diff on either side is the panic (`none`). -/
def compare_pulls (new_pull other_pull : PullRequest) : Option (List Conflict) :=
  match new_pull.diff, other_pull.diff with
  | some nd, some od => some (comparePullsOn new_pull other_pull nd od)
  | _, _ => none

/-! ## Hash maps as association lists

The generic operations shared by every `HashMap` of the source.  Lookup
returns the first binding; replacement rewrites and removal drops every
binding of the key, so on states with distinct keys — the only states a
`HashMap` denotes — these are the map operations. -/

namespace HMap

/-- `HashMap::get`: the value bound to the key (the first binding). -/
def get? {k : Type} {a : Type} [DecidableEq k] : List (k × a) → k → Option a
  | [], _ => none
  | e :: es, key => if e.1 = key then some e.2 else get? es key

/-- Rewrite the value bound to a key in place. -/
def swap {k : Type} {a : Type} [DecidableEq k] (m : List (k × a)) (key : k) (v : a) :
    List (k × a) :=
  m.map (fun e => if e.1 = key then (key, v) else e)

/-- `HashMap::remove`'s effect on the map. -/
def del {k : Type} {a : Type} [DecidableEq k] (m : List (k × a)) (key : k) :
    List (k × a) :=
  m.filter (fun e => e.1 ≠ key)

/-- `HashMap::insert` (also `entry(..).or_default()` followed by a write):
replace the binding when present, append it otherwise. -/
def put {k : Type} {a : Type} [DecidableEq k] (m : List (k × a)) (key : k) (v : a) :
    List (k × a) :=
  match get? m key with
  | some _ => swap m key v
  | none => m ++ [(key, v)]

end HMap

/-! ## The conflict store (src/helpers/conflicts.rs, `Storage`) -/

/-- The deduplication key of a conflict: the pull pair normalised to
ascending order, plus the kind. -/
abbrev ConflictKey := Int × Int × ConflictType

/-- `make_conflict_key`. -/
def make_conflict_key (original trigger : Int) (kind : ConflictType) : ConflictKey :=
  if original < trigger then (original, trigger, kind) else (trigger, original, kind)

/-- `Conflict::key`. -/
def Conflict.key (c : Conflict) : ConflictKey :=
  make_conflict_key c.original c.trigger c.kind

/-- One repository's conflict map (`HashMap<ConflictKey, Conflict>`). -/
abbrev RepoConflicts := List (ConflictKey × Conflict)

/-- The whole store (`HashMap<String, HashMap<ConflictKey, Conflict>>`). -/
abbrev Storage := List (String × RepoConflicts)

namespace Storage

/-- `HashMap` lookup: the first binding of the key. -/
def rcFind (m : RepoConflicts) (key : ConflictKey) : Option Conflict := HMap.get? m key

/-- Look up a repository's map (`HashMap::get`). -/
def repoOf (st : Storage) (repo : String) : Option RepoConflicts := HMap.get? st repo

/-- Write back a repository's map, creating the entry when absent
(`HashMap::entry(..).or_default()` followed by mutation). -/
def setRepo (st : Storage) (repo : String) (m : RepoConflicts) : Storage :=
  HMap.put st repo m

/-- Direct lookup of a stored conflict. -/
def find (st : Storage) (repo : String) (key : ConflictKey) : Option Conflict :=
  match repoOf st repo with
  | some m => rcFind m key
  | none => none

/-- `Storage::upsert`: insert a new conflict and return it; return `none`
for an unchanged duplicate; otherwise replace only the stored `file_set`
and return the stored record after the update. -/
def upsert (st : Storage) (repo : String) (c : Conflict) : Option Conflict × Storage :=
  let m := (repoOf st repo).getD []
  match rcFind m c.key with
  | none => (some c, setRepo st repo (m ++ [(c.key, c)]))
  | some existing =>
    if existing = c then (none, st)
    else
      let updated := { existing with file_set := c.file_set }
      (some updated, setRepo st repo (HMap.swap m c.key updated))

/-- `Storage::remove_missing`: for the pair under comparison, drop every
stored conflict of either kind whose key the classifier did not re-emit,
and return the removed records. -/
def remove_missing (st : Storage) (repo : String) (original trigger : Int)
    (detected : List Conflict) : List Conflict × Storage :=
  match repoOf st repo with
  | none => ([], st)
  | some m =>
    let possible_keys :=
      [make_conflict_key original trigger .Overlap,
       make_conflict_key original trigger .IncompleteTranslation]
    let keys_to_preserve := detected.map Conflict.key
    let doomed := possible_keys.filter (fun key => ¬ keys_to_preserve.contains key)
    let removed := doomed.filterMap (rcFind m)
    (removed, setRepo st repo (doomed.foldl HMap.del m))

/-- `Storage::remove_conflicts_by_pull`: erase every conflict in which the
pull participates (`prune_conflicts` with the trigger-or-original
predicate). -/
def remove_conflicts_by_pull (st : Storage) (repo : String) (pull_number : Int) : Storage :=
  match repoOf st repo with
  | none => st
  | some m =>
    setRepo st repo
      (m.filter (fun kv => ¬ (kv.2.trigger = pull_number ∨ kv.2.original = pull_number)))

end Storage

/-! ## The pull-request cache (src/memory.rs, `Memory`) -/

/-- One repository's pulls (`HashMap<i32, PullRequest>`). -/
abbrev RepoPulls := List (Int × PullRequest)

/-- The two-level pull cache; the conflicts side of `Memory` is dead state
(never read by the controller) and is not modelled. -/
abbrev Memory := List (String × RepoPulls)

namespace Memory

/-- Lookup of one pull. -/
def rpFind (m : RepoPulls) (n : Int) : Option PullRequest := HMap.get? m n

/-- `Memory::pulls`: the repository's map, if the repository is known. -/
def pulls (mem : Memory) (repo : String) : Option RepoPulls := HMap.get? mem repo

/-- Write back a repository's pulls. -/
def setRepo (mem : Memory) (repo : String) (m : RepoPulls) : Memory :=
  HMap.put mem repo m

/-- `Memory::insert_pull`: keep the cached entry when its `updated_at` is
at least the incoming one; otherwise store the incoming pull. -/
def insert_pull (mem : Memory) (repo : String) (new_pull : PullRequest) : Memory :=
  let m := (pulls mem repo).getD []
  match rpFind m new_pull.number with
  | some cached =>
    if new_pull.updated_at ≤ cached.updated_at then mem
    else setRepo mem repo (HMap.put m new_pull.number new_pull)
  | none => setRepo mem repo (HMap.put m new_pull.number new_pull)

/-- `Memory::remove_pull`. -/
def remove_pull (mem : Memory) (repo : String) (p : PullRequest) : Memory :=
  match pulls mem repo with
  | none => mem
  | some m => setRepo mem repo (m.filter (fun kv => kv.1 ≠ p.number))

end Memory

/-! ## Decimal numerals

Digit printing and parsing, for the serialized `pull_number` field. -/

/-- The ASCII digit of a value below ten. -/
def digitCh (n : Nat) : Char := Char.ofNat (48 + n)

/-- Decimal numeral worker, structurally recursive on a fuel argument so
that numerals compute by kernel reduction; `fuel > n` always suffices. -/
def natToCharsGo : Nat → Nat → List Char
  | 0, _ => []
  | fuel + 1, n =>
    if n < 10 then [digitCh n]
    else natToCharsGo fuel (n / 10) ++ [digitCh (n % 10)]

/-- Decimal numeral of a natural number, most significant digit first. -/
def natToChars (n : Nat) : List Char := natToCharsGo (n + 1) n

/-- Decimal numeral of an integer (the `serde` rendering of an `i32`). -/
def intToChars (i : Int) : List Char :=
  if i < 0 then '-' :: natToChars i.natAbs else natToChars i.toNat

/-- Numeric value of an ASCII digit. -/
def digitVal (c : Char) : Option Nat :=
  if 48 ≤ c.toNat ∧ c.toNat ≤ 57 then some (c.toNat - 48) else none

/-- Accumulating decimal parser. -/
def parseNatAux (acc : Nat) : List Char → Option Nat
  | [] => some acc
  | c :: cs =>
    match digitVal c with
    | some d => parseNatAux (10 * acc + d) cs
    | none => none

/-- Parse a nonempty all-digit numeral. -/
def parseNatC (l : List Char) : Option Nat :=
  match l with
  | [] => none
  | _ => parseNatAux 0 l

/-- Parse an optionally signed decimal integer. -/
def parseIntC (l : List Char) : Option Int :=
  if l.head? = some '-' then (parseNatC l.tail).map (fun n => -(n : Int))
  else (parseNatC l).map (fun n => (n : Int))

/-! ## The comment header codec (src/helpers/comments.rs) -/

/-- The serialized name of a conflict kind (its Rust variant name, which is
what `serde` emits and accepts for a unit variant). -/
def ConflictType.serName : ConflictType → String
  | .Overlap => "Overlap"
  | .IncompleteTranslation => "IncompleteTranslation"

/-- The machine-readable header of a bot comment (`CommentHeader`). -/
structure CommentHeader where
  pull_number : Int
  conflict_type : ConflictType
deriving DecidableEq

namespace CommentHeader

/-- `CommentHeader`'s `ToMarkdown`: the serialized mapping between `<!--`
and `-->` lines.  The mapping body is the `serde_yaml` block rendering,
one `key: value` line per field in declaration order (the shape asserted
by the repository's own `conflict_to_markdown` test). -/
def to_markdown (h : CommentHeader) : String :=
  ⟨"<!--".data ++ '\n' ::
    ("pull_number: ".data ++ intToChars h.pull_number) ++ '\n' ::
    ("conflict_type: ".data ++ h.conflict_type.serName.data) ++ '\n' ::
    "-->".data⟩

/-- Split one mapping line at the first `": "` into key and value. -/
def splitKV : List Char → Option (List Char × List Char)
  | [] => none
  | ':' :: ' ' :: rest => some ([], rest)
  | c :: rest =>
    match splitKV rest with
    | some kv => some (c :: kv.1, kv.2)
    | none => none

/-- Deserialize a conflict kind from its variant name. -/
def parseTypeName (v : List Char) : Option ConflictType :=
  if v = "Overlap".data then some .Overlap
  else if v = "IncompleteTranslation".data then some .IncompleteTranslation
  else none

/-- The `serde_yaml` deserializer for `CommentHeader`, modelled on the
block-mapping shape: every line must be a `key: value` pair, the two
fields must each appear exactly once (a duplicate key is a YAML error),
unknown keys are ignored as `serde` does for a struct without
`deny_unknown_fields`. -/
def parseHeaderLines : List (List Char) → Option Int → Option ConflictType →
    Option CommentHeader
  | [], some n, some t => some ⟨n, t⟩
  | [], _, _ => none
  | line :: rest, pn, ct =>
    match splitKV line with
    | none => none
    | some (k, v) =>
      if k = "pull_number".data then
        match pn with
        | some _ => none
        | none =>
          match parseIntC v with
          | some n => parseHeaderLines rest (some n) ct
          | none => none
      else if k = "conflict_type".data then
        match ct with
        | some _ => none
        | none =>
          match parseTypeName v with
          | some t => parseHeaderLines rest pn (some t)
          | none => none
      else parseHeaderLines rest pn ct

/-- `CommentHeader::from_comment`: reject a body that does not begin with
`<!--`; otherwise take the lines up to `-->` (skipping `<!--` lines) and
deserialize them as the header mapping. -/
def from_comment (body : String) : Option CommentHeader :=
  if leadsWith "<!--".data body.data then
    parseHeaderLines (collect (splitSep '\n' body.data)) none none
  else none
where
  /-- The line-collection loop of `from_comment`. -/
  collect : List (List Char) → List (List Char)
  | [] => []
  | l :: ls =>
    if leadsWith "<!--".data l then collect ls
    else if leadsWith "-->".data l then []
    else l :: collect ls

end CommentHeader

/-! ## SHA-256 (src/helpers/digest.rs, `hash_data` over `ring`'s SHA-256)

A direct FIPS 180-4 implementation on byte lists, with 32-bit words as
naturals reduced mod `2^32`. -/

namespace SHA256

/-- `2^32`, the word modulus. -/
def M32 : Nat := 4294967296

/-- Right rotation of a 32-bit word. -/
def rotr (n x : Nat) : Nat := ((x >>> n) ||| (x <<< (32 - n))) % M32

/-- Bitwise complement of a 32-bit word. -/
def wnot (x : Nat) : Nat := 4294967295 - x

/-- `Ch(x,y,z)`. -/
def ch (x y z : Nat) : Nat := (x &&& y) ^^^ (wnot x &&& z)

/-- `Maj(x,y,z)`. -/
def maj (x y z : Nat) : Nat := ((x &&& y) ^^^ (x &&& z)) ^^^ (y &&& z)

/-- `Σ₀`. -/
def bsig0 (x : Nat) : Nat := (rotr 2 x ^^^ rotr 13 x) ^^^ rotr 22 x

/-- `Σ₁`. -/
def bsig1 (x : Nat) : Nat := (rotr 6 x ^^^ rotr 11 x) ^^^ rotr 25 x

/-- `σ₀`. -/
def ssig0 (x : Nat) : Nat := (rotr 7 x ^^^ rotr 18 x) ^^^ (x >>> 3)

/-- `σ₁`. -/
def ssig1 (x : Nat) : Nat := (rotr 17 x ^^^ rotr 19 x) ^^^ (x >>> 10)

/-- The 64 round constants (FIPS 180-4 §4.2.2, written in decimal). -/
def Kconst : List Nat :=
  [1116352408, 1899447441, 3049323471, 3921009573, 961987163,
   1508970993, 2453635748, 2870763221, 3624381080, 310598401,
   607225278, 1426881987, 1925078388, 2162078206, 2614888103,
   3248222580, 3835390401, 4022224774, 264347078, 604807628,
   770255983, 1249150122, 1555081692, 1996064986, 2554220882,
   2821834349, 2952996808, 3210313671, 3336571891, 3584528711,
   113926993, 338241895, 666307205, 773529912, 1294757372,
   1396182291, 1695183700, 1986661051, 2177026350, 2456956037,
   2730485921, 2820302411, 3259730800, 3345764771, 3516065817,
   3600352804, 4094571909, 275423344, 430227734, 506948616,
   659060556, 883997877, 958139571, 1322822218, 1537002063,
   1747873779, 1955562222, 2024104815, 2227730452, 2361852424,
   2428436474, 2756734187, 3204031479, 3329325298]

/-- The eight-word hash state. -/
structure W8 where
  a : Nat
  b : Nat
  c : Nat
  d : Nat
  e : Nat
  f : Nat
  g : Nat
  h : Nat
deriving DecidableEq

/-- The initial hash value (FIPS 180-4 §5.3.3, written in decimal). -/
def Hinit : W8 :=
  ⟨1779033703, 3144134277, 1013904242, 2773480762,
   1359893119, 2600822924, 528734635, 1541459225⟩

/-- Big-endian bytes of a value, fixed width. -/
def beBytes (count n : Nat) : List Nat :=
  (List.range count).reverse.map (fun i => (n >>> (8 * i)) &&& 0xFF)

/-- Big-endian word of up to four bytes. -/
def beWord (bs : List Nat) : Nat := bs.foldl (fun acc b => acc * 256 + b) 0

/-- Message padding: `0x80`, zeros to 56 mod 64, the bit length on
eight bytes. -/
def pad (msg : List Nat) : List Nat :=
  let zeros := (55 - msg.length % 64 + 64) % 64
  msg ++ 0x80 :: (List.replicate zeros 0 ++ beBytes 8 (msg.length * 8))

/-- Split the padded message into 64-byte blocks. -/
def chunk64 (l : List Nat) : List (List Nat) :=
  if _h : l = [] then [] else l.take 64 :: chunk64 (l.drop 64)
termination_by l.length
decreasing_by
  have hlen : 0 < l.length := List.length_pos.mpr _h
  simp only [List.length_drop]
  omega

/-- Extend sixteen schedule words to sixty-four. -/
def extend (w : List Nat) : List Nat :=
  (List.range 48).foldl
    (fun w _ =>
      w ++ [(ssig1 (w.getD (w.length - 2) 0) + w.getD (w.length - 7) 0 +
             ssig0 (w.getD (w.length - 15) 0) + w.getD (w.length - 16) 0) % M32])
    w

/-- One compression round. -/
def round (w k : Nat) (s : W8) : W8 :=
  let t1 := (s.h + bsig1 s.e + ch s.e s.f s.g + k + w) % M32
  let t2 := (bsig0 s.a + maj s.a s.b s.c) % M32
  ⟨(t1 + t2) % M32, s.a, s.b, s.c, (s.d + t1) % M32, s.e, s.f, s.g⟩

/-- Compress one block into the hash state. -/
def compress (hs : W8) (block : List Nat) : W8 :=
  let w := extend ((List.range 16).map (fun i => beWord ((block.drop (4 * i)).take 4)))
  let s := (List.range 64).foldl (fun s i => round (w.getD i 0) (Kconst.getD i 0) s) hs
  ⟨(hs.a + s.a) % M32, (hs.b + s.b) % M32, (hs.c + s.c) % M32, (hs.d + s.d) % M32,
   (hs.e + s.e) % M32, (hs.f + s.f) % M32, (hs.g + s.g) % M32, (hs.h + s.h) % M32⟩

/-- The digest of a byte message. -/
def digestWords (msg : List Nat) : W8 :=
  (chunk64 (pad msg)).foldl compress Hinit

/-- The 32 digest bytes. -/
def digestBytes (msg : List Nat) : List Nat :=
  match digestWords msg with
  | ⟨a, b, c, d, e, f, g, h⟩ =>
    beBytes 4 a ++ beBytes 4 b ++ beBytes 4 c ++ beBytes 4 d ++
    beBytes 4 e ++ beBytes 4 f ++ beBytes 4 g ++ beBytes 4 h

end SHA256

/-- UTF-8 bytes of one character (how `str::as_bytes` sees it). -/
def utf8Char (c : Char) : List Nat :=
  let n := c.toNat
  if n < 0x80 then [n]
  else if n < 0x800 then [0xC0 ||| (n >>> 6), 0x80 ||| (n &&& 0x3F)]
  else if n < 0x10000 then
    [0xE0 ||| (n >>> 12), 0x80 ||| ((n >>> 6) &&& 0x3F), 0x80 ||| (n &&& 0x3F)]
  else
    [0xF0 ||| (n >>> 18), 0x80 ||| ((n >>> 12) &&& 0x3F),
     0x80 ||| ((n >>> 6) &&& 0x3F), 0x80 ||| (n &&& 0x3F)]

/-- The UTF-8 bytes of a string. -/
def strBytes (s : String) : List Nat := (s.data.map utf8Char).flatten

/-- A lowercase hexadecimal digit. -/
def hexDigit (n : Nat) : Char :=
  if n < 10 then digitCh n else Char.ofNat (87 + n)

/-- Two lowercase hex characters of a byte (`{:02x}` in `hash_to_string`). -/
def byteHex (b : Nat) : List Char := [hexDigit (b / 16), hexDigit (b % 16)]

/-- `digest::hash_data(&SHA256, data)`: the lowercase hex digest of the
raw bytes. -/
def hash_data (s : String) : String :=
  ⟨((SHA256.digestBytes (strBytes s)).map byteHex).flatten⟩

/-! ## Conflict rendering (src/helpers/conflicts.rs, `ToMarkdown`) -/

/-- Modelled from the spec: the fixed prose template for an `Overlap`
conflict (`comments::OVERLAP_TEMPLATE`; the constant itself is not in the
checked-out sources, which carry the previous revision of
src/helpers/comments.rs — only its prose, under its earlier name). -/
def OVERLAP_TEMPLATE : String :=
  "Someone else has edited same files as you did. Please check their changes in case they conflict with yours:\n"

/-- Modelled from the spec: the fixed prose template for an
`IncompleteTranslation` conflict (`comments::INCOMPLETE_TRANSLATION_TEMPLATE`,
same situation as `OVERLAP_TEMPLATE`). -/
def INCOMPLETE_TRANSLATION_TEMPLATE : String :=
  "Some articles might have changes that are missing from your translation. Please update it after they are merged:\n"

/-- `ConflictType`'s `ToMarkdown`: the per-kind prose template. -/
def ConflictType.to_markdown : ConflictType → String
  | .Overlap => OVERLAP_TEMPLATE
  | .IncompleteTranslation => INCOMPLETE_TRANSLATION_TEMPLATE

/-- `Conflict`'s `ToMarkdown`: the header (keyed by the original pull and
the kind), the kind's template, then either a single `(>10 files)` line or
one deep-linked bullet per file. -/
def Conflict.to_markdown (c : Conflict) : String :=
  let header : CommentHeader := ⟨c.original, c.kind⟩
  let fileLines : List String :=
    if c.file_set.length > 10 then
      [⟨"- ".data ++ c.reference_url.data ++ " (>10 files)".data⟩]
    else
      (⟨"- ".data ++ c.reference_url.data ++ ", files:".data⟩ : String) ::
      c.file_set.map (fun file =>
        let file_link :=
          c.reference_url.data ++ "/files#diff-".data ++ (hash_data file).data
        ⟨"  - [`".data ++ file.data ++ "`](".data ++ file_link ++ ")".data⟩)
  String.intercalate "\n" (header.to_markdown :: c.kind.to_markdown :: fileLines)

/-! ## Forge comments and the write interface (src/github.rs, reduced to
what `send_updates` consumes) -/

/-- An issue comment (`IssueComment`), reduced to the fields the
reconciler reads. -/
structure IssueComment where
  id : Int
  body : String
  user : Actor
deriving DecidableEq

/-- The per-repository forge state the controller reads: the issue
comments of each pull, and the diff the forge would serve for a pull
(`none` for a failing fetch). -/
structure Forge where
  comments : Int → List IssueComment
  pullDiff : Int → Option Diff

/-- A comment write issued by the reconciler, in issue order. -/
inductive WriteAction
  | delete (comment_id : Int)
  | update (comment_id : Int) (body : String)
  | post (pull_number : Int) (body : String)
deriving DecidableEq

/-- The comment ids edited by a write list (used to state reconciler
properties without committing to comment bodies). -/
def updateIds (ws : List WriteAction) : List Int :=
  ws.filterMap (fun w => match w with | .update i _ => some i | _ => none)

/-- The comment ids deleted by a write list. -/
def deleteIds (ws : List WriteAction) : List Int :=
  ws.filterMap (fun w => match w with | .delete i => some i | _ => none)

/-- The pull numbers that receive a new comment in a write list. -/
def postPulls (ws : List WriteAction) : List Int :=
  ws.filterMap (fun w => match w with | .post p _ => some p | _ => none)

/-- `Controller::has_control_over`: a comment is bot-owned iff its author
login is `<slug>[bot]`. -/
def has_control_over (slug : String) (user : Actor) : Bool :=
  user.login = ⟨slug.data ++ "[bot]".data⟩

/-! ## The controller (src/controller/controller_impl.rs)

The controller's `refresh_conflicts`, `send_updates` and `finalize_pull`,
as pure state transformers.  Two deliberate renderings of Rust
non-determinism: `HashMap` value iteration enters `refresh_conflicts` as an
explicit input list (the source sorts it by `created_at` with a stable
sort, so only `created_at` ties depend on it), and the `HashMap` key
iteration of `send_updates` follows the association-list order of its two
input maps. -/

/-- `HashMap<i32, Vec<Conflict>>`, the `to_update` / `to_remove` shape. -/
abbrev PendMap := List (Int × List Conflict)

/-- `map.entry(k).or_default().push(c)`. -/
def pushEntry (m : PendMap) (k : Int) (c : Conflict) : PendMap :=
  match m.find? (fun e => e.1 = k) with
  | some _ => m.map (fun e => if e.1 = k then (k, e.2 ++ [c]) else e)
  | none => m ++ [(k, [c])]

/-- The merge-translation guard of `refresh_conflicts` (issue 25): an
`IncompleteTranslation` conflict made only of original articles and
triggered by the just-finalized pull is scheduled for removal instead of
being upserted. -/
def merge_guard (kind_to_match : ConflictType) (new_number : Int) (c : Conflict) : Bool :=
  c.kind = kind_to_match && kind_to_match = ConflictType.IncompleteTranslation &&
  c.file_set.all (fun f => trailsWith "en.md".data f.data) && c.trigger = new_number

/-- The in-flight state of one `refresh_conflicts` run. -/
structure RefreshAcc where
  pending : PendMap
  toRemove : PendMap
  store : Storage
deriving DecidableEq

/-- The per-detected-conflict step of `refresh_conflicts`: apply the merge
guard, otherwise upsert; a returned conflict of the matching kind joins
`pending` under its trigger — also when the upsert reported no change. -/
def processConflict (repo : String) (new_number : Int) (kind_to_match : ConflictType)
    (acc : RefreshAcc) (c : Conflict) : RefreshAcc :=
  if merge_guard kind_to_match new_number c then
    { acc with toRemove := pushEntry acc.toRemove c.trigger c }
  else
    match Storage.upsert acc.store repo c with
    | (some updated, st') =>
      if updated.kind = kind_to_match then
        { pending := pushEntry acc.pending updated.trigger updated,
          toRemove := acc.toRemove, store := st' }
      else { acc with store := st' }
    | (none, st') =>
      if c.kind = kind_to_match then
        { acc with pending := pushEntry acc.pending c.trigger c, store := st' }
      else { acc with store := st' }

/-- The per-other-pull step of `refresh_conflicts`: classify the pair,
evict the pair's stale stored conflicts, then process every detected
conflict. -/
def processOther (repo : String) (new_pull : PullRequest) (kind_to_match : ConflictType)
    (acc : RefreshAcc) (other : PullRequest) : Option RefreshAcc :=
  (compare_pulls new_pull other).map (fun detected =>
    let rm := Storage.remove_missing acc.store repo other.number new_pull.number detected
    let acc1 : RefreshAcc :=
      { pending := acc.pending,
        toRemove := rm.1.foldl (fun m r => pushEntry m r.trigger r) acc.toRemove,
        store := rm.2 }
    detected.foldl (processConflict repo new_pull.number kind_to_match) acc1)

/-- The iteration order of `refresh_conflicts`: every cached pull other
than the focal one, sorted ascending by `created_at`. -/
def refreshOrder (pulls_map : List PullRequest) (new_pull : PullRequest) :
    List PullRequest :=
  sortBy (fun p q => p.created_at < q.created_at)
    (pulls_map.filter (fun p => p.number ≠ new_pull.number))

/-- Group a conflict list by trigger pull, in order
(`entry(trigger).or_default().push(..)` over the list). -/
def groupByTrigger (cs : List Conflict) : PendMap :=
  cs.foldl (fun m c => pushEntry m c.trigger c) []

/-- `Controller::refresh_conflicts`: run the classifier of the focal pull
against every other cached pull in `created_at` order, maintaining the
store, and return the updates and removals maps. -/
def refresh_conflicts (st : Storage) (repo : String) (pulls_map : List PullRequest)
    (new_pull : PullRequest) (kind_to_match : ConflictType) :
    Option (PendMap × PendMap × Storage) :=
  let r := (refreshOrder pulls_map new_pull).foldl
    (fun acc other => acc.bind (fun a => processOther repo new_pull kind_to_match a other))
    (some ⟨[], [], st⟩)
  r.map (fun a => (a.pending, a.toRemove, a.store))

/-- The comment-reference map of `send_updates`
(`HashMap<(i32, ConflictType), IssueComment>`). -/
abbrev RefMap := Int × ConflictType → Option IssueComment

/-- The first loop of `send_updates`: read the comments of every affected
pull, keep the bot-owned ones, and map each parseable header to its
comment — one shared map for all pulls, later insertions overwriting
earlier ones. -/
def buildRefs (slug : String) (forge : Forge) (keys : List Int) : RefMap :=
  keys.foldl
    (fun refs pn =>
      ((forge.comments pn).filter (fun c => has_control_over slug c.user)).foldl
        (fun refs c =>
          match CommentHeader.from_comment c.body with
          | some h => fun k =>
              if k = (h.pull_number, h.conflict_type) then some c else refs k
          | none => refs)
        refs)
    (fun _ => none)

/-- Insert a sequence of header-to-comment bindings into a reference map,
later ones overwriting earlier ones (the `HashMap::insert` sequence of
`send_updates`'s first loop). -/
def refInsertAll (l : List ((Int × ConflictType) × IssueComment)) (refs : RefMap) :
    RefMap :=
  l.foldl (fun refs e => fun k => if k = e.1 then some e.2 else refs k) refs

/-- The insertion sequence of `send_updates`'s first loop: for every
processed pull in order, its bot-owned comments with a parseable header,
keyed by the header. -/
def headerInserts (slug : String) (forge : Forge) (keys : List Int) :
    List ((Int × ConflictType) × IssueComment) :=
  keys.flatMap (fun pn =>
    ((forge.comments pn).filter (fun c => has_control_over slug c.user)).filterMap
      (fun c => (CommentHeader.from_comment c.body).map
        (fun h => ((h.pull_number, h.conflict_type), c))))

/-- `Controller::send_updates`: delete the comments of evicted conflicts,
then update-or-create a comment per pending conflict, consulting the
shared reference map; nothing is written when `post_comments` is off. -/
def send_updates (slug : String) (post_comments : Bool) (forge : Forge)
    (pending to_remove : PendMap) : List WriteAction :=
  let refs := buildRefs slug forge (pending.map Prod.fst ++ to_remove.map Prod.fst)
  let dels := to_remove.flatMap (fun e => e.2.flatMap (fun r =>
    match refs (r.original, r.kind) with
    | some ec => if post_comments then [WriteAction.delete ec.id] else []
    | none => []))
  let ups := pending.flatMap (fun e => e.2.flatMap (fun u =>
    match refs (u.original, u.kind) with
    | some ec => if post_comments then [WriteAction.update ec.id u.to_markdown] else []
    | none => if post_comments then [WriteAction.post e.1 u.to_markdown] else []))
  dels ++ ups

/-- `Controller::finalize_pull`: for a merged pull, take its cached copy
(or fetch its diff), refresh `IncompleteTranslation` conflicts and — only
when the updates map is nonempty — reconcile; in every case drop the pull
from the cache and erase its conflicts. -/
def finalize_pull (slug : String) (post_comments : Bool) (forge : Forge)
    (mem : Memory) (st : Storage) (repo : String) (closed_pull : PullRequest) :
    Option (List WriteAction × Memory × Storage) :=
  if closed_pull.is_merged then
    match Memory.pulls mem repo with
    | some pulls_map =>
      let closed' :=
        match Memory.rpFind pulls_map closed_pull.number with
        | some p => p
        | none => { closed_pull with diff := forge.pullDiff closed_pull.number }
      (refresh_conflicts st repo (pulls_map.map Prod.snd) closed'
          ConflictType.IncompleteTranslation).map
        (fun r =>
          let writes :=
            if r.1.isEmpty then [] else send_updates slug post_comments forge r.1 r.2.1
          (writes, Memory.remove_pull mem repo closed',
           Storage.remove_conflicts_by_pull r.2.2 repo closed'.number))
    | none =>
      some ([], Memory.remove_pull mem repo closed_pull,
        Storage.remove_conflicts_by_pull st repo closed_pull.number)
  else
    some ([], Memory.remove_pull mem repo closed_pull,
      Storage.remove_conflicts_by_pull st repo closed_pull.number)

/-! ## Concrete fixtures

Pull requests, stores and forge states used by the witness and
counterexample theorems; diffs take the `a/<path>` / `b/<path>` shape of a
real unified diff (the same shape the repository's test helper emits). -/

/-- A patched file of an ordinary (non-add, non-delete) diff entry. -/
def diffFile (p : String) : PatchedFile :=
  ⟨⟨"a/".data ++ p.data⟩, ⟨"b/".data ++ p.data⟩⟩

/-- A pull request over the given article files, numbered and created in
submission order (the shape of the repository test fixture). -/
def testPull (n : Int) (files : List String) : PullRequest :=
  { id := n, number := n, state := "open", title := "Update an article",
    user := ⟨1, "BanchoBot"⟩,
    html_url := ⟨"https://github.com/test/repo/pull/".data ++ intToChars n⟩,
    created_at := n, updated_at := 0, diff := some (files.map diffFile),
    merged_at := none, merged := false }

/-- The bot's own forge identity, for `slug := "test-app"`. -/
def botUser : Actor := ⟨2, "test-app[bot]"⟩

/-- A bot comment carrying the header for `(original, kind)`. -/
def botComment (i original : Int) (kind : ConflictType) : IssueComment :=
  ⟨i, ⟨(CommentHeader.to_markdown ⟨original, kind⟩).data ++ "\nadvisory text".data⟩, botUser⟩

/-- Pull #1 and pull #2 both touch `wiki/Article/en.md`. -/
def exP1 : PullRequest := testPull 1 ["wiki/Article/en.md"]

/-- See `exP1`. -/
def exP2 : PullRequest := testPull 2 ["wiki/Article/en.md"]

/-- The overlap the classifier emits for `exP2` against `exP1`. -/
def exOverlap : Conflict :=
  Conflict.overlap 2 1 "https://github.com/test/repo/pull/1" ["wiki/Article/en.md"]

/-- The store after the first `refresh_conflicts` pass for `exP2`:
exactly the detected overlap. -/
def exStore1 : Storage := [("test/repo", [(exOverlap.key, exOverlap)])]

/-- A forge on which pull #2 already carries the bot's overlap comment
(id 50). -/
def exForgeC1 : Forge :=
  { comments := fun n => if n = 2 then [botComment 50 1 .Overlap] else [],
    pullDiff := fun _ => none }

/-- An `IncompleteTranslation` of pull #5 against original pull #1. -/
def exIt5 : Conflict :=
  Conflict.incomplete_translation 5 1 "https://github.com/test/repo/pull/1" ["wiki/A/en.md"]

/-- An `IncompleteTranslation` of pull #6 against the same original #1. -/
def exIt6 : Conflict :=
  Conflict.incomplete_translation 6 1 "https://github.com/test/repo/pull/1" ["wiki/B/en.md"]

/-- A forge where pulls #5 and #6 each hold their own bot comment with the
same header `(1, IncompleteTranslation)` (ids 50 and 60). -/
def exForgeC2 : Forge :=
  { comments := fun n =>
      if n = 5 then [botComment 50 1 .IncompleteTranslation]
      else if n = 6 then [botComment 60 1 .IncompleteTranslation]
      else [],
    pullDiff := fun _ => none }

/-- A merged revision of pull #1 that no longer touches any article file. -/
def exP1Merged : PullRequest :=
  { testPull 1 ["wiki/X/img/chart.png"] with merged := true }

/-- The pull cache holding `exP1Merged` and `exP2` for the finalization
scenario. -/
def exMemC3 : Memory := [("test/repo", [(1, exP1Merged), (2, exP2)])]

/-- A forge where pull #2 carries the stale overlap comment (id 70). -/
def exForgeC3 : Forge :=
  { comments := fun n => if n = 2 then [botComment 70 1 .Overlap] else [],
    pullDiff := fun _ => none }

/-- A stored conflict whose pair roles are swapped relative to `exSwapIn`:
trigger 2, original 1. -/
def exStored : Conflict := Conflict.overlap 2 1 "https://github.com/test/repo/pull/1" ["f0"]

/-- An incoming conflict with the same key as `exStored` but flipped
roles and another file set. -/
def exSwapIn : Conflict := Conflict.overlap 1 2 "https://github.com/test/repo/pull/2" ["f1"]

/-- A store holding `exStored`. -/
def exStoreSwap : Storage := [("test/repo", [(exStored.key, exStored)])]

/-- A pull request whose diff was never attached. -/
def exNoDiff : PullRequest := { testPull 3 [] with diff := none }

/-- Pull #1 touches only the Russian translation of an article. -/
def exRu : PullRequest := testPull 1 ["wiki/Article/ru.md"]

/-- Pull #2 touches only the Korean translation of the same article. -/
def exKo : PullRequest := testPull 2 ["wiki/Article/ko.md"]

/-! # Lemmas

General facts about the embedding, shared by the claim theorems below. -/

theorem splitSep_ne_nil (c : Char) (l : List Char) : splitSep c l ≠ [] := by
  cases l with
  | nil => simp [splitSep]
  | cons x xs =>
    simp only [splitSep]
    cases splitSep c xs with
    | nil => simp
    | cons h t => by_cases hx : x = c <;> simp [hx]

theorem joinSep_splitSep (c : Char) (l : List Char) :
    joinSep c (splitSep c l) = l := by
  induction l with
  | nil => rfl
  | cons x xs ih =>
    simp only [splitSep]
    rcases hs : splitSep c xs with _ | ⟨h, t⟩
    · exact absurd hs (splitSep_ne_nil c xs)
    · rw [hs] at ih
      by_cases hx : x = c
      · subst hx
        simpa [joinSep] using ih
      · simp only [if_neg hx]
        cases t with
        | nil => simpa [joinSep] using ih
        | cons t0 ts => simpa [joinSep] using ih

theorem splitSep_sep_free (c : Char) (l : List Char) :
    ∀ comp ∈ splitSep c l, c ∉ comp := by
  induction l with
  | nil => intro comp h; simp [splitSep] at h; simp [h]
  | cons x xs ih =>
    intro comp hmem
    rcases hs : splitSep c xs with _ | ⟨h, t⟩
    · exact absurd hs (splitSep_ne_nil c xs)
    · rw [hs] at ih
      simp only [splitSep, hs] at hmem
      by_cases hx : x = c
      · rw [if_pos hx, List.mem_cons] at hmem
        rcases hmem with rfl | hmem
        · simp
        · exact ih comp hmem
      · rw [if_neg hx, List.mem_cons] at hmem
        rcases hmem with rfl | hmem
        · intro hc
          rw [List.mem_cons] at hc
          rcases hc with hc | hc
          · exact hx hc.symm
          · exact ih h (List.mem_cons_self h t) hc
        · exact ih comp (List.mem_cons_of_mem h hmem)

namespace HMap

variable {k : Type} {a : Type} [DecidableEq k]

theorem get?_swap_self (m : List (k × a)) (key : k) (v : a) :
    get? (swap m key v) key = (get? m key).map (fun _ => v) := by
  induction m with
  | nil => rfl
  | cons e es ih =>
    by_cases he : e.1 = key
    · simp [swap, get?, he]
    · simpa [swap, get?, he] using ih

theorem get?_swap_ne (m : List (k × a)) (key key' : k) (v : a) (h : key' ≠ key) :
    get? (swap m key v) key' = get? m key' := by
  induction m with
  | nil => rfl
  | cons e es ih =>
    by_cases he : e.1 = key
    · have h1 : ¬ (key = key') := fun hk => h hk.symm
      have h2 : ¬ (e.1 = key') := by rw [he]; exact h1
      simpa [swap, get?, he, h1, h2] using ih
    · by_cases he' : e.1 = key'
      · have h1 : ¬ (key = key') := fun hk => h hk.symm
        simp [swap, get?, he, he', h1, h]
      · simpa [swap, get?, he, he'] using ih

theorem get?_del_self (m : List (k × a)) (key : k) :
    get? (del m key) key = none := by
  induction m with
  | nil => rfl
  | cons e es ih =>
    by_cases he : e.1 = key
    · simpa [del, List.filter_cons, he] using ih
    · simpa [del, List.filter_cons, get?, he] using ih

theorem get?_del_ne (m : List (k × a)) (key key' : k) (h : key' ≠ key) :
    get? (del m key) key' = get? m key' := by
  induction m with
  | nil => rfl
  | cons e es ih =>
    by_cases he : e.1 = key
    · have h1 : ¬ (key = key') := fun hk => h hk.symm
      simpa [del, List.filter_cons, get?, he, h1] using ih
    · by_cases he' : e.1 = key'
      · have h1 : ¬ (key = key') := fun hk => h hk.symm
        simp [del, List.filter_cons, get?, he, he', h1, h]
      · simpa [del, List.filter_cons, get?, he, he'] using ih

theorem get?_append (m m' : List (k × a)) (key : k) :
    get? (m ++ m') key = match get? m key with | some v => some v | none => get? m' key := by
  induction m with
  | nil => rfl
  | cons e es ih =>
    by_cases he : e.1 = key
    · simp [get?, he]
    · simpa [get?, he] using ih

theorem get?_put_self (m : List (k × a)) (key : k) (v : a) :
    get? (put m key v) key = some v := by
  unfold put
  cases hf : get? m key with
  | none => rw [get?_append, hf]; simp [get?]
  | some w => rw [get?_swap_self, hf]; rfl

theorem get?_put_ne (m : List (k × a)) (key key' : k) (v : a) (h : key' ≠ key) :
    get? (put m key v) key' = get? m key' := by
  unfold put
  cases hf : get? m key with
  | none =>
    rw [get?_append]
    cases hf' : get? m key' with
    | none => simp [get?, Ne.symm h]
    | some w => rfl
  | some w => exact get?_swap_ne m key key' v h

end HMap


theorem get?_foldl_del {k : Type} {a : Type} [DecidableEq k]
    (l : List k) (m : List (k × a)) (key : k) :
    HMap.get? (l.foldl HMap.del m) key = if key ∈ l then none else HMap.get? m key := by
  induction l generalizing m with
  | nil => simp
  | cons x xs ih =>
    simp only [List.foldl_cons]
    rw [ih]
    by_cases hx : key = x
    · subst hx
      by_cases hmem : key ∈ xs <;> simp [hmem, HMap.get?_del_self]
    · by_cases hmem : key ∈ xs <;> simp [hmem, hx, HMap.get?_del_ne m x key hx]

theorem storage_find_getD (st : Storage) (repo : String) (key : ConflictKey) :
    Storage.find st repo key = Storage.rcFind ((Storage.repoOf st repo).getD []) key := by
  unfold Storage.find
  cases h : Storage.repoOf st repo <;> simp [Storage.rcFind, HMap.get?]

theorem find_setRepo_self (st : Storage) (repo : String) (m : RepoConflicts)
    (key : ConflictKey) :
    Storage.find (Storage.setRepo st repo m) repo key = Storage.rcFind m key := by
  unfold Storage.find Storage.repoOf Storage.setRepo
  rw [HMap.get?_put_self]

theorem repoOf_setRepo_ne (st : Storage) (repo r : String) (m : RepoConflicts)
    (h : r ≠ repo) :
    Storage.repoOf (Storage.setRepo st repo m) r = Storage.repoOf st r := by
  unfold Storage.repoOf Storage.setRepo
  exact HMap.get?_put_ne st repo r m h

/-! # The claims -/

/-- C4, counterexample.  The claim ends "hence upserting the same conflict
twice into any store returns `Some` then `None`": on a store that already
holds the conflict, the **first** upsert already returns `None`, so the
`Some`-then-`None` pattern fails. -/
theorem upsert_twice_not_some_then_none :
    Storage.find exStoreSwap "test/repo" exStored.key = some exStored ∧
    (Storage.upsert exStoreSwap "test/repo" exStored).1 = none := by
  exact ⟨rfl, rfl⟩

/-- C4, amended: `upsert` inserts and returns `Some c` when the key is
absent, returns `None` when the stored conflict equals `c`; hence upserting
the same conflict twice into a store whose key is initially **absent**
returns `Some` then `None`. -/
theorem upsert_insert_and_idempotent (st : Storage) (repo : String) (c : Conflict) :
    (Storage.find st repo c.key = none →
      (Storage.upsert st repo c).1 = some c ∧
      Storage.find (Storage.upsert st repo c).2 repo c.key = some c ∧
      (Storage.upsert (Storage.upsert st repo c).2 repo c).1 = none) ∧
    (Storage.find st repo c.key = some c → (Storage.upsert st repo c).1 = none) := by
  have habs : ∀ st' : Storage, Storage.find st' repo c.key = none →
      (Storage.upsert st' repo c).1 = some c ∧
      Storage.find (Storage.upsert st' repo c).2 repo c.key = some c := by
    intro st' h
    rw [storage_find_getD] at h
    have hup : Storage.upsert st' repo c =
        (some c,
         Storage.setRepo st' repo
           (((Storage.repoOf st' repo).getD []) ++ [(c.key, c)])) := by
      simp only [Storage.upsert, h]
    have h' : HMap.get? ((Storage.repoOf st' repo).getD []) c.key = none := h
    rw [hup]
    refine ⟨rfl, ?_⟩
    rw [find_setRepo_self]
    unfold Storage.rcFind
    rw [HMap.get?_append, h']
    simp [HMap.get?]
  have hsome : ∀ st' : Storage, Storage.find st' repo c.key = some c →
      (Storage.upsert st' repo c).1 = none := by
    intro st' h
    rw [storage_find_getD] at h
    simp only [Storage.upsert, h]
    simp
  refine ⟨fun h => ⟨(habs st h).1, (habs st h).2, ?_⟩, hsome st⟩
  exact hsome _ (habs st h).2

/-- C4, witness for the amended theorem at the empty store. -/
theorem upsert_insert_and_idempotent_witness :
    (Storage.upsert [] "test/repo" exStored).1 = some exStored ∧
    (Storage.upsert (Storage.upsert [] "test/repo" exStored).2 "test/repo" exStored).1 =
      none :=
  ⟨((upsert_insert_and_idempotent [] "test/repo" exStored).1 rfl).1,
   ((upsert_insert_and_idempotent [] "test/repo" exStored).1 rfl).2.2⟩

/-- C5: when the stored conflict under `c`'s key differs from `c`, only
its `file_set` is replaced — kind, trigger, original and reference URL
keep their stored values (roles are **not** swapped to match `c`) — the
returned conflict is the stored record after the update, and no other
stored conflict changes. -/
theorem upsert_existing_updates_file_set_only (st : Storage) (repo : String)
    (c e : Conflict) (hfound : Storage.find st repo c.key = some e) (hne : e ≠ c) :
    (Storage.upsert st repo c).1 = some { e with file_set := c.file_set } ∧
    ({ e with file_set := c.file_set } : Conflict).kind = e.kind ∧
    ({ e with file_set := c.file_set } : Conflict).trigger = e.trigger ∧
    ({ e with file_set := c.file_set } : Conflict).original = e.original ∧
    ({ e with file_set := c.file_set } : Conflict).reference_url = e.reference_url ∧
    Storage.find (Storage.upsert st repo c).2 repo c.key =
      some { e with file_set := c.file_set } ∧
    (∀ key, key ≠ c.key →
      Storage.find (Storage.upsert st repo c).2 repo key = Storage.find st repo key) ∧
    (∀ r, r ≠ repo →
      Storage.repoOf (Storage.upsert st repo c).2 r = Storage.repoOf st r) := by
  have hg := hfound
  rw [storage_find_getD] at hg
  have hup : Storage.upsert st repo c =
      (some { e with file_set := c.file_set },
       Storage.setRepo st repo
         (HMap.swap ((Storage.repoOf st repo).getD []) c.key
           { e with file_set := c.file_set })) := by
    simp only [Storage.upsert, hg, if_neg hne]
  have hg' : HMap.get? ((Storage.repoOf st repo).getD []) c.key = some e := hg
  rw [hup]
  refine ⟨rfl, rfl, rfl, rfl, rfl, ?_, ?_, ?_⟩
  · rw [find_setRepo_self]
    unfold Storage.rcFind
    rw [HMap.get?_swap_self, hg']
    rfl
  · intro key hkey
    rw [find_setRepo_self, storage_find_getD]
    unfold Storage.rcFind
    exact HMap.get?_swap_ne _ c.key key _ hkey
  · intro r hr
    exact repoOf_setRepo_ne st repo r _ hr

/-- C5, witness: a swapped-role incoming conflict updates the stored
file set while preserving the stored role assignment. -/
theorem upsert_existing_updates_file_set_only_witness :
    (Storage.upsert exStoreSwap "test/repo" exSwapIn).1 =
      some { exStored with file_set := exSwapIn.file_set } ∧
    ({ exStored with file_set := exSwapIn.file_set } : Conflict).trigger = 2 :=
  ⟨(upsert_existing_updates_file_set_only exStoreSwap "test/repo" exSwapIn exStored
      rfl (by decide)).1,
   rfl⟩

/-- C6: `remove_missing(repo, a, b, detected)` removes exactly the stored
conflicts keyed by the normalised pair `(a, b)` with either kind whose key
is not among the keys of `detected`, returns them, and leaves every other
stored conflict — other keys of the repository and other repositories —
unchanged. -/
theorem remove_missing_exact (st : Storage) (repo : String) (a b : Int)
    (detected : List Conflict) :
    (Storage.remove_missing st repo a b detected).1 =
      (([make_conflict_key a b .Overlap,
         make_conflict_key a b .IncompleteTranslation].filter
          (fun key => ¬ (detected.map Conflict.key).contains key)).filterMap
        (Storage.find st repo)) ∧
    (∀ key,
      Storage.find (Storage.remove_missing st repo a b detected).2 repo key =
        if key ∈ ([make_conflict_key a b .Overlap,
                   make_conflict_key a b .IncompleteTranslation].filter
                    (fun key => ¬ (detected.map Conflict.key).contains key)) then none
        else Storage.find st repo key) ∧
    (∀ r, r ≠ repo →
      Storage.repoOf (Storage.remove_missing st repo a b detected).2 r =
        Storage.repoOf st r) := by
  unfold Storage.remove_missing
  cases hrep : Storage.repoOf st repo with
  | none =>
    refine ⟨?_, fun key => ?_, fun r _ => rfl⟩
    · rw [List.filterMap_eq_nil_iff.mpr]
      intro key hkey
      unfold Storage.find
      rw [hrep]
    · unfold Storage.find
      rw [hrep]
      by_cases hk : key ∈ ([make_conflict_key a b .Overlap,
          make_conflict_key a b .IncompleteTranslation].filter
            (fun key => ¬ (detected.map Conflict.key).contains key)) <;> simp [hk]
  | some m =>
    have hfind : ∀ key, Storage.find st repo key = Storage.rcFind m key := by
      intro key
      unfold Storage.find
      rw [hrep]
    refine ⟨?_, fun key => ?_, fun r hr => repoOf_setRepo_ne st repo r _ hr⟩
    · exact (List.filterMap_congr (fun key _ => (hfind key).symm))
    · rw [find_setRepo_self]
      unfold Storage.rcFind
      rw [get?_foldl_del]
      by_cases hk : key ∈ ([make_conflict_key a b .Overlap,
          make_conflict_key a b .IncompleteTranslation].filter
            (fun key => ¬ (detected.map Conflict.key).contains key)) <;>
        simp [hk, hfind key, Storage.rcFind]

/-- C6, witness: a stored overlap for the pair `(1, 2)` is evicted when
the classifier reports nothing, and nothing else is touched. -/
theorem remove_missing_exact_witness :
    (Storage.remove_missing exStoreSwap "test/repo" 1 2 []).1 = [exStored] ∧
    Storage.find (Storage.remove_missing exStoreSwap "test/repo" 1 2 []).2 "test/repo"
      exStored.key = none ∧
    Storage.repoOf (Storage.remove_missing exStoreSwap "test/repo" 1 2 []).2 "other/repo" =
      Storage.repoOf exStoreSwap "other/repo" := by
  refine ⟨?_, ?_, ?_⟩
  · rw [(remove_missing_exact exStoreSwap "test/repo" 1 2 []).1]
    decide
  · rw [(remove_missing_exact exStoreSwap "test/repo" 1 2 []).2.1 exStored.key]
    decide
  · exact (remove_missing_exact exStoreSwap "test/repo" 1 2 []).2.2 "other/repo"
      (by decide)

/-- C8: `insert_pull` is monotonic in `updated_at` — a cached entry at
least as new makes the insert a no-op, and otherwise the incoming pull is
stored, leaving every other entry and repository unchanged. -/
theorem insert_pull_monotonic (mem : Memory) (repo : String) (p : PullRequest) :
    (∀ q, Memory.rpFind ((Memory.pulls mem repo).getD []) p.number = some q →
      p.updated_at ≤ q.updated_at → Memory.insert_pull mem repo p = mem) ∧
    ((∀ q, Memory.rpFind ((Memory.pulls mem repo).getD []) p.number = some q →
        q.updated_at < p.updated_at) →
      Memory.rpFind ((Memory.pulls (Memory.insert_pull mem repo p) repo).getD [])
          p.number = some p ∧
      (∀ n, n ≠ p.number →
        Memory.rpFind ((Memory.pulls (Memory.insert_pull mem repo p) repo).getD []) n =
          Memory.rpFind ((Memory.pulls mem repo).getD []) n) ∧
      (∀ r, r ≠ repo →
        Memory.pulls (Memory.insert_pull mem repo p) r = Memory.pulls mem r)) := by
  constructor
  · intro q hq hle
    simp only [Memory.insert_pull, hq]
    rw [if_pos hle]
  · intro hlt
    have hstore :
        Memory.insert_pull mem repo p =
          Memory.setRepo mem repo
            (HMap.put ((Memory.pulls mem repo).getD []) p.number p) := by
      cases hq : Memory.rpFind ((Memory.pulls mem repo).getD []) p.number with
      | none => simp only [Memory.insert_pull, hq]
      | some q =>
        have := hlt q hq
        simp only [Memory.insert_pull, hq]
        rw [if_neg (by omega)]
    rw [hstore]
    have hself : Memory.pulls
        (Memory.setRepo mem repo (HMap.put ((Memory.pulls mem repo).getD []) p.number p))
        repo = some (HMap.put ((Memory.pulls mem repo).getD []) p.number p) := by
      unfold Memory.pulls Memory.setRepo
      exact HMap.get?_put_self mem repo _
    refine ⟨?_, ?_, ?_⟩
    · rw [hself]
      exact HMap.get?_put_self _ p.number p
    · intro n hn
      rw [hself]
      exact HMap.get?_put_ne _ p.number n p hn
    · intro r hr
      unfold Memory.pulls Memory.setRepo
      exact HMap.get?_put_ne mem repo r _ hr

/-- C8, witness: a younger incoming revision of pull #1 is dropped. -/
theorem insert_pull_monotonic_witness :
    Memory.insert_pull [("test/repo", [(1, testPull 1 ["wiki/Article/en.md"])])]
      "test/repo" { testPull 1 [] with updated_at := -1 } =
    [("test/repo", [(1, testPull 1 ["wiki/Article/en.md"])])] :=
  (insert_pull_monotonic _ "test/repo" _).1 (testPull 1 ["wiki/Article/en.md"]) rfl
    (by decide)


/-! ### Numeral and line-splitting lemmas for the header codec -/

theorem parseNatAux_append (xs ys : List Char) (acc : Nat) :
    parseNatAux acc (xs ++ ys) =
      match parseNatAux acc xs with
      | some a => parseNatAux a ys
      | none => none := by
  induction xs generalizing acc with
  | nil => rfl
  | cons c cs ih =>
    cases hd : digitVal c with
    | none => simp [parseNatAux, hd]
    | some d => simp [parseNatAux, hd]; exact ih _

theorem digitCh_toNat (m : Nat) (h : m < 10) : (digitCh m).toNat = 48 + m := by
  interval_cases m <;> decide

theorem digitVal_digitCh (m : Nat) (h : m < 10) : digitVal (digitCh m) = some m := by
  interval_cases m <;> decide

theorem natToCharsGo_ne_nil (fuel n : Nat) (h : n < fuel) :
    natToCharsGo fuel n ≠ [] := by
  cases fuel with
  | zero => omega
  | succ f =>
    unfold natToCharsGo
    split <;> simp

theorem natToChars_ne_nil (n : Nat) : natToChars n ≠ [] :=
  natToCharsGo_ne_nil (n + 1) n (by omega)

theorem natToCharsGo_digits (fuel : Nat) :
    ∀ n : Nat, ∀ c ∈ natToCharsGo fuel n, 48 ≤ c.toNat ∧ c.toNat ≤ 57 := by
  induction fuel with
  | zero => intro n c hc; simp [natToCharsGo] at hc
  | succ f ih =>
    intro n c hc
    unfold natToCharsGo at hc
    split at hc
    case isTrue h =>
      rw [List.mem_singleton] at hc
      subst hc
      rw [digitCh_toNat _ h]
      omega
    case isFalse h =>
      rcases List.mem_append.mp hc with h1 | h2
      · exact ih (n / 10) c h1
      · rw [List.mem_singleton] at h2
        subst h2
        have hm : n % 10 < 10 := Nat.mod_lt _ (by omega)
        rw [digitCh_toNat _ hm]
        omega

theorem natToChars_digits (n : Nat) :
    ∀ c ∈ natToChars n, 48 ≤ c.toNat ∧ c.toNat ≤ 57 :=
  natToCharsGo_digits (n + 1) n

theorem parseNatAux_natToCharsGo (fuel : Nat) :
    ∀ n acc : Nat, n < fuel →
      parseNatAux acc (natToCharsGo fuel n) =
        some (acc * 10 ^ (natToCharsGo fuel n).length + n) := by
  induction fuel with
  | zero => intro n acc h; omega
  | succ f ih =>
    intro n acc _h
    by_cases h : n < 10
    · unfold natToCharsGo
      rw [if_pos h]
      simp [parseNatAux, digitVal_digitCh n h]
      omega
    · have hlt : n / 10 < f := by
        have h1 : n / 10 < n := Nat.div_lt_self (by omega) (by omega)
        omega
      unfold natToCharsGo
      rw [if_neg h]
      rw [parseNatAux_append]
      rw [ih (n / 10) acc hlt]
      have hm : n % 10 < 10 := Nat.mod_lt _ (by omega)
      simp only [parseNatAux, digitVal_digitCh _ hm]
      rw [List.length_append, List.length_singleton, pow_succ, ← mul_assoc]
      simp only [Option.some.injEq]
      generalize acc * 10 ^ (natToCharsGo f (n / 10)).length = Q
      omega

theorem parseNatAux_natToChars (n : Nat) (acc : Nat) :
    parseNatAux acc (natToChars n) =
      some (acc * 10 ^ (natToChars n).length + n) :=
  parseNatAux_natToCharsGo (n + 1) n acc (by omega)

theorem parseNatC_natToChars (n : Nat) : parseNatC (natToChars n) = some n := by
  cases hl : natToChars n with
  | nil => exact absurd hl (natToChars_ne_nil n)
  | cons a as =>
    have hh := parseNatAux_natToChars n 0
    rw [hl] at hh
    simpa [parseNatC] using hh

theorem natToChars_head_ne_dash (n : Nat) :
    (natToChars n).head? ≠ some '-' := by
  cases hl : natToChars n with
  | nil => simp
  | cons a as =>
    have hd := natToChars_digits n a (by rw [hl]; exact List.mem_cons_self a as)
    simp only [List.head?, ne_eq, Option.some.injEq]
    intro hcontra
    rw [hcontra] at hd
    revert hd
    decide

theorem parseIntC_intToChars (i : Int) : parseIntC (intToChars i) = some i := by
  by_cases h : i < 0
  · have h1 : intToChars i = '-' :: natToChars i.natAbs := by
      unfold intToChars
      rw [if_pos h]
    have h2 : parseIntC ('-' :: natToChars i.natAbs) =
        (parseNatC (natToChars i.natAbs)).map (fun n => -(n : Int)) := rfl
    rw [h1, h2, parseNatC_natToChars]
    show some (-(i.natAbs : Int)) = some i
    have hval : (-(i.natAbs : Int)) = i := by omega
    rw [hval]
  · have h1 : intToChars i = natToChars i.toNat := by
      unfold intToChars
      rw [if_neg h]
    rw [h1]
    unfold parseIntC
    rw [if_neg (natToChars_head_ne_dash i.toNat), parseNatC_natToChars]
    show some ((i.toNat : Int)) = some i
    have hval : ((i.toNat : Int)) = i := by omega
    rw [hval]

theorem intToChars_no_nl (i : Int) : ¬ ('\n' ∈ intToChars i) := by
  unfold intToChars
  split
  · intro hmem
    rcases List.mem_cons.mp hmem with h | h
    · exact absurd h (by decide)
    · have := natToChars_digits _ _ h
      revert this
      decide
  · intro hmem
    have := natToChars_digits _ _ hmem
    revert this
    decide

theorem splitSep_append_sep (c : Char) (xs ys : List Char) (h : c ∉ xs) :
    splitSep c (xs ++ c :: ys) = xs :: splitSep c ys := by
  induction xs with
  | nil =>
    simp only [List.nil_append, splitSep]
    cases hs : splitSep c ys with
    | nil => exact absurd hs (splitSep_ne_nil c ys)
    | cons a as => simp
  | cons x xs ih =>
    have hx : x ≠ c := fun hh => h (hh ▸ List.mem_cons_self x xs)
    have h' : c ∉ xs := fun hh => h (List.mem_cons_of_mem x hh)
    have hih := ih h'
    cases hs : splitSep c (xs ++ c :: ys) with
    | nil => exact absurd hs (splitSep_ne_nil c _)
    | cons a as =>
      rw [hs] at hih
      injection hih with ha has
      rw [List.cons_append]
      simp only [splitSep, hs]
      rw [if_neg hx, ha, has]

theorem splitKV_pull_label (v : List Char) :
    CommentHeader.splitKV
        (['p', 'u', 'l', 'l', '_', 'n', 'u', 'm', 'b', 'e', 'r', ':', ' '] ++ v) =
      some (['p', 'u', 'l', 'l', '_', 'n', 'u', 'm', 'b', 'e', 'r'], v) := rfl

theorem parseHeaderLines_two (v1 v2 : List Char) :
    CommentHeader.parseHeaderLines
        [['p', 'u', 'l', 'l', '_', 'n', 'u', 'm', 'b', 'e', 'r', ':', ' '] ++ v1,
         ['c', 'o', 'n', 'f', 'l', 'i', 'c', 't', '_', 't', 'y', 'p', 'e', ':', ' '] ++ v2]
        none none =
      (match parseIntC v1 with
       | some n =>
         match CommentHeader.parseTypeName v2 with
         | some t => some (⟨n, t⟩ : CommentHeader)
         | none => none
       | none => none) := rfl

/-- C9: the comment-header codec round-trips — decoding the encoded
markdown of any header yields the header back — and decoding rejects any
body that does not begin with `<!--`; on bodies that do, decoding is
exactly the mapping parse of the lines before `-->`, so a malformed
mapping is rejected as well. -/
theorem comment_header_roundtrip :
    (∀ hdr : CommentHeader,
      CommentHeader.from_comment (CommentHeader.to_markdown hdr) = some hdr) ∧
    (∀ body : String, leadsWith "<!--".data body.data = false →
      CommentHeader.from_comment body = none) ∧
    (∀ body : String, leadsWith "<!--".data body.data = true →
      CommentHeader.from_comment body =
        CommentHeader.parseHeaderLines
          (CommentHeader.from_comment.collect (splitSep '\n' body.data)) none none) := by
  refine ⟨?_, ?_, ?_⟩
  · rintro ⟨i, t⟩
    have hbody : (CommentHeader.to_markdown ⟨i, t⟩).data =
        "<!--".data ++ '\n' :: (("pull_number: ".data ++ intToChars i) ++ '\n' ::
          (("conflict_type: ".data ++ t.serName.data) ++ '\n' :: "-->".data)) := by
      cases t <;> simp [CommentHeader.to_markdown, ConflictType.serName]
    have h1 : '\n' ∉ "<!--".data := by decide
    have h2 : '\n' ∉ "pull_number: ".data ++ intToChars i := by
      intro hm
      rcases List.mem_append.mp hm with hm | hm
      · revert hm; decide
      · exact intToChars_no_nl i hm
    have h3 : '\n' ∉ "conflict_type: ".data ++ t.serName.data := by
      cases t <;> decide
    have hsplit : splitSep '\n' (CommentHeader.to_markdown ⟨i, t⟩).data =
        ["<!--".data, "pull_number: ".data ++ intToChars i,
         "conflict_type: ".data ++ t.serName.data, "-->".data] := by
      rw [hbody, splitSep_append_sep _ _ _ h1, splitSep_append_sep _ _ _ h2,
        splitSep_append_sep _ _ _ h3]
      rfl
    have hcond : leadsWith "<!--".data (CommentHeader.to_markdown ⟨i, t⟩).data = true := by
      rw [hbody]
      rfl
    unfold CommentHeader.from_comment
    rw [if_pos hcond, hsplit]
    have hcollect : CommentHeader.from_comment.collect
        ["<!--".data, "pull_number: ".data ++ intToChars i,
         "conflict_type: ".data ++ t.serName.data, "-->".data] =
        ["pull_number: ".data ++ intToChars i,
         "conflict_type: ".data ++ t.serName.data] := by
      cases t <;> rfl
    rw [hcollect]
    refine (parseHeaderLines_two (intToChars i) t.serName.data).trans ?_
    rw [parseIntC_intToChars]
    cases t <;> rfl
  · intro body hneg
    unfold CommentHeader.from_comment
    rw [if_neg (by simp [hneg])]
  · intro body hpos
    unfold CommentHeader.from_comment
    rw [if_pos hpos]

/-- C9, witness: a concrete round trip, a rejected headerless body, and a
rejected malformed mapping. -/
theorem comment_header_roundtrip_witness :
    CommentHeader.from_comment
        (CommentHeader.to_markdown ⟨7, ConflictType.Overlap⟩) =
      some ⟨7, ConflictType.Overlap⟩ ∧
    CommentHeader.from_comment "advisory text without a header" = none ∧
    CommentHeader.from_comment "<!--\ngarbage\n-->" = none :=
  ⟨comment_header_roundtrip.1 ⟨7, ConflictType.Overlap⟩,
   comment_header_roundtrip.2.1 "advisory text without a header" (by decide),
   by
    rw [comment_header_roundtrip.2.2 "<!--\ngarbage\n-->" (by decide)]
    decide⟩

theorem compare_pulls_some (p q : PullRequest) (d1 d2 : Diff)
    (h1 : p.diff = some d1) (h2 : q.diff = some d2) :
    compare_pulls p q = some (comparePullsOn p q d1 d2) := by
  unfold compare_pulls
  rw [h1, h2]

/-- C10: `compare_pulls` is partial in its arguments' diffs — with both
diffs attached it returns the classifier's verdict without panicking,
while a missing diff on either side is unwrapped unconditionally and
panics. -/
theorem compare_pulls_requires_diffs (p q : PullRequest) :
    (∀ d1 d2, p.diff = some d1 → q.diff = some d2 →
      compare_pulls p q = some (comparePullsOn p q d1 d2)) ∧
    ((p.diff = none ∨ q.diff = none) → compare_pulls p q = none) := by
  constructor
  · intro d1 d2 h1 h2
    exact compare_pulls_some p q d1 d2 h1 h2
  · intro h
    unfold compare_pulls
    rcases h with h | h
    · rw [h]
    · rw [h]
      cases p.diff <;> rfl

/-- C10, witness: the classifier runs on two attached diffs and is the
panic on a detached one. -/
theorem compare_pulls_requires_diffs_witness :
    compare_pulls exRu exKo =
      some (comparePullsOn exRu exKo (["wiki/Article/ru.md"].map diffFile)
        (["wiki/Article/ko.md"].map diffFile)) ∧
    compare_pulls exNoDiff exKo = none :=
  ⟨(compare_pulls_requires_diffs exRu exKo).1 _ _ rfl rfl,
   (compare_pulls_requires_diffs exNoDiff exKo).2 (Or.inl rfl)⟩

/-! ### Path injectivity and classifier lemmas for sibling translations -/

theorem append_sep_inj (c : Char) (x y a b : List Char)
    (hx : c ∉ x) (hy : c ∉ y) (h : x ++ c :: a = y ++ c :: b) : x = y ∧ a = b := by
  induction x generalizing y with
  | nil =>
    cases y with
    | nil => simpa using h
    | cons yh yt =>
      exfalso
      rw [List.nil_append, List.cons_append, List.cons.injEq] at h
      exact hy (h.1 ▸ List.mem_cons_self yh yt)
  | cons xh xt ih =>
    cases y with
    | nil =>
      exfalso
      rw [List.nil_append, List.cons_append, List.cons.injEq] at h
      exact hx (h.1.symm ▸ List.mem_cons_self xh xt)
    | cons yh yt =>
      rw [List.cons_append, List.cons_append, List.cons.injEq] at h
      have hx' : c ∉ xt := fun hm => hx (List.mem_cons_of_mem xh hm)
      have hy' : c ∉ yt := fun hm => hy (List.mem_cons_of_mem yh hm)
      obtain ⟨h1, h2⟩ := ih yt hx' hy' h.2
      exact ⟨by rw [h.1, h1], h2⟩

theorem joinSep_inj (c : Char) (l1 l2 : List (List Char))
    (hfree1 : ∀ x ∈ l1, c ∉ x) (hfree2 : ∀ x ∈ l2, c ∉ x)
    (hne1 : ∀ x ∈ l1, x ≠ []) (hne2 : ∀ x ∈ l2, x ≠ [])
    (heq : joinSep c l1 = joinSep c l2) : l1 = l2 := by
  induction l1 generalizing l2 with
  | nil =>
    cases l2 with
    | nil => rfl
    | cons y ys =>
      exfalso
      cases ys with
      | nil =>
        exact hne2 y (List.mem_cons_self y []) (by simpa [joinSep] using heq.symm)
      | cons z zs =>
        have hlen : y ++ c :: joinSep c (z :: zs) = [] := by
          simpa [joinSep] using heq.symm
        simpa using congrArg List.length hlen
  | cons x xs ih =>
    cases l2 with
    | nil =>
      exfalso
      cases xs with
      | nil =>
        exact hne1 x (List.mem_cons_self x []) (by simpa [joinSep] using heq)
      | cons z zs =>
        simp [joinSep] at heq
    | cons y ys =>
      cases xs with
      | nil =>
        cases ys with
        | nil =>
          have hxy : x = y := by simp [joinSep] at heq; exact heq
          rw [hxy]
        | cons z zs =>
          exfalso
          have hx : c ∉ x := hfree1 x (List.mem_cons_self x [])
          have hsh : x = y ++ c :: joinSep c (z :: zs) := by simpa [joinSep] using heq
          exact hx (hsh ▸ List.mem_append_right y (List.mem_cons_self c _))
      | cons w ws =>
        cases ys with
        | nil =>
          exfalso
          have hy : c ∉ y := hfree2 y (List.mem_cons_self y [])
          have hsh : y = x ++ c :: joinSep c (w :: ws) := by simpa [joinSep] using heq.symm
          exact hy (hsh ▸ List.mem_append_right x (List.mem_cons_self c _))
        | cons z zs =>
          have hx : c ∉ x := hfree1 x (List.mem_cons_self x _)
          have hy : c ∉ y := hfree2 y (List.mem_cons_self y _)
          have heq' : x ++ c :: joinSep c (w :: ws) = y ++ c :: joinSep c (z :: zs) := by
            simpa [joinSep] using heq
          obtain ⟨h1, h2⟩ := append_sep_inj c x y _ _ hx hy heq'
          have h3 := ih (z :: zs)
            (fun u hu => hfree1 u (List.mem_cons_of_mem x hu))
            (fun u hu => hfree2 u (List.mem_cons_of_mem y hu))
            (fun u hu => hne1 u (List.mem_cons_of_mem x hu))
            (fun u hu => hne2 u (List.mem_cons_of_mem y hu))
            h2
          rw [h1, h3]

theorem articleName_shape (name : List Char) (h : articleNameMatch name = true) :
    name = stemOfName name ++ ['.', 'm', 'd'] := by
  unfold articleNameMatch at h
  split at h
  · rfl
  · rfl
  · exact absurd h (by simp)

theorem fileNameC_canonical (s : String)
    (hcan : ∀ comp ∈ splitSep '/' s.data, comp ≠ [] ∧ comp ≠ ['.'])
    (hmatch : articleNameMatch ((fileNameC s.data).getD []) = true) :
    ∃ hne : splitSep '/' s.data ≠ [],
      fileNameC s.data = some ((splitSep '/' s.data).getLast hne) := by
  have hne : splitSep '/' s.data ≠ [] := splitSep_ne_nil '/' s.data
  have hfilter :
      (splitSep '/' s.data).filter (fun comp => comp ≠ [] && comp ≠ ['.']) =
        splitSep '/' s.data :=
    List.filter_eq_self.mpr (fun a ha => by simp [(hcan a ha).1, (hcan a ha).2])
  by_cases hdd : (splitSep '/' s.data).getLast hne = ['.', '.']
  · exfalso
    unfold fileNameC at hmatch
    rw [hfilter, List.getLast?_eq_getLast _ hne] at hmatch
    simp [hdd, articleNameMatch] at hmatch
  · refine ⟨hne, ?_⟩
    unfold fileNameC
    rw [hfilter, List.getLast?_eq_getLast _ hne]
    simp [hdd]

theorem from_file_path_inj (s1 s2 : String)
    (h1 : articleNameMatch ((fileNameC s1.data).getD []) = true)
    (h2 : articleNameMatch ((fileNameC s2.data).getD []) = true)
    (hc1 : ∀ comp ∈ splitSep '/' s1.data, comp ≠ [] ∧ comp ≠ ['.'])
    (hc2 : ∀ comp ∈ splitSep '/' s2.data, comp ≠ [] ∧ comp ≠ ['.'])
    (heq : Article.from_file_path s1 = Article.from_file_path s2) : s1 = s2 := by
  obtain ⟨hne1, hf1⟩ := fileNameC_canonical s1 hc1 h1
  obtain ⟨hne2, hf2⟩ := fileNameC_canonical s2 hc2 h2
  have hpar : parentC s1.data = parentC s2.data := by
    have := congrArg (fun a => a.path.data) heq
    simpa [Article.from_file_path] using this
  have hlang : fileStemC s1.data = fileStemC s2.data := by
    have := congrArg (fun a => a.language.data) heq
    simpa [Article.from_file_path] using this
  have hstem1 : fileStemC s1.data =
      stemOfName ((splitSep '/' s1.data).getLast hne1) := by
    unfold fileStemC
    rw [hf1]
  have hstem2 : fileStemC s2.data =
      stemOfName ((splitSep '/' s2.data).getLast hne2) := by
    unfold fileStemC
    rw [hf2]
  have hmatch1 : articleNameMatch ((splitSep '/' s1.data).getLast hne1) = true := by
    rw [hf1] at h1
    simpa using h1
  have hmatch2 : articleNameMatch ((splitSep '/' s2.data).getLast hne2) = true := by
    rw [hf2] at h2
    simpa using h2
  have hlasteq :
      (splitSep '/' s1.data).getLast hne1 = (splitSep '/' s2.data).getLast hne2 := by
    rw [articleName_shape _ hmatch1, articleName_shape _ hmatch2,
      ← hstem1, ← hstem2, hlang]
  have hdrop : (splitSep '/' s1.data).dropLast = (splitSep '/' s2.data).dropLast := by
    apply joinSep_inj '/' _ _
      (fun x hx => splitSep_sep_free '/' s1.data x ((List.dropLast_sublist _).subset hx))
      (fun x hx => splitSep_sep_free '/' s2.data x ((List.dropLast_sublist _).subset hx))
      (fun x hx => (hc1 x ((List.dropLast_sublist _).subset hx)).1)
      (fun x hx => (hc2 x ((List.dropLast_sublist _).subset hx)).1)
    unfold parentC at hpar
    exact hpar
  have hcs : splitSep '/' s1.data = splitSep '/' s2.data := by
    rw [← List.dropLast_append_getLast hne1, ← List.dropLast_append_getLast hne2,
      hdrop, hlasteq]
  have hdata : s1.data = s2.data := by
    rw [← joinSep_splitSep '/' s1.data, ← joinSep_splitSep '/' s2.data, hcs]
  cases s1
  cases s2
  exact congrArg String.mk (by simpa using hdata)

theorem mem_setInsert (y x : String) (l : List String) (hy : y ∈ setInsert x l) :
    y = x ∨ y ∈ l := by
  induction l with
  | nil => simpa [setInsert] using hy
  | cons z zs ih =>
    unfold setInsert at hy
    by_cases hlt1 : strLtB x z = true
    · rw [if_pos hlt1] at hy
      rcases List.mem_cons.mp hy with h | h
      · exact Or.inl h
      · exact Or.inr h
    · rw [if_neg hlt1] at hy
      by_cases hlt2 : strLtB z x = true
      · rw [if_pos hlt2] at hy
        rcases List.mem_cons.mp hy with h | h
        · exact Or.inr (h ▸ List.mem_cons_self z zs)
        · rcases ih h with h | h
          · exact Or.inl h
          · exact Or.inr (List.mem_cons_of_mem z h)
      · rw [if_neg hlt2] at hy
        exact Or.inr hy

theorem mem_setOfList (l acc : List String) (y : String)
    (hy : y ∈ l.foldl (fun acc x => setInsert x acc) acc) : y ∈ acc ∨ y ∈ l := by
  induction l generalizing acc with
  | nil => exact Or.inl (by simpa using hy)
  | cons x xs ih =>
    rcases ih (setInsert x acc) hy with h | h
    · rcases mem_setInsert y x acc h with h | h
      · exact Or.inr (h ▸ List.mem_cons_self x xs)
      · exact Or.inl h
    · exact Or.inr (List.mem_cons_of_mem x h)

theorem foldl_fixed {α β : Type} (f : α → β → α) (l : List β) (st : α)
    (h : ∀ st' : α, ∀ b ∈ l, f st' b = st') : l.foldl f st = st := by
  induction l generalizing st with
  | nil => rfl
  | cons b bs ih =>
    rw [List.foldl_cons, h st b (List.mem_cons_self b bs)]
    exact ih st (fun st' b' hb' => h st' b' (List.mem_cons_of_mem b hb'))

theorem cmpStep_no_op (other_files : List String) (ipath : String) (st : CmpState)
    (other : String)
    (hio : articleNameMatch ((fileNameC ipath.data).getD []) = true)
    (hit : (Article.from_file_path ipath).language ≠ "en")
    (hican : ∀ comp ∈ splitSep '/' ipath.data, comp ≠ [] ∧ comp ≠ ['.'])
    (hoo : articleNameMatch ((fileNameC other.data).getD []) = true)
    (hot : (Article.from_file_path other).language ≠ "en")
    (hocan : ∀ comp ∈ splitSep '/' other.data, comp ≠ [] ∧ comp ≠ ['.'])
    (hne : ipath ≠ other) :
    cmpStep other_files ipath st other = st := by
  by_cases hpath :
      (Article.from_file_path ipath).path ≠ (Article.from_file_path other).path
  · simp only [cmpStep, if_pos hpath]
  · have hartne : Article.from_file_path ipath ≠ Article.from_file_path other :=
      fun he => hne (from_file_path_inj ipath other hio hoo hican hocan he)
    have ho1 : (Article.from_file_path ipath).is_original = false := by
      unfold Article.is_original
      exact decide_eq_false hit
    have ho2 : (Article.from_file_path other).is_original = false := by
      unfold Article.is_original
      exact decide_eq_false hot
    simp only [cmpStep, if_neg hpath, decide_eq_false hartne, Bool.false_and, ho1, ho2,
      Bool.false_or, Bool.and_self, Bool.false_eq_true, if_false]

theorem comparePullsOn_translations_empty (p q : PullRequest) (d1 d2 : Diff)
    (ht1 : ∀ f ∈ d1,
      articleNameMatch ((fileNameC (PatchedFile.path f).data).getD []) = true ∧
      (Article.from_file_path (PatchedFile.path f)).language ≠ "en" ∧
      (∀ comp ∈ splitSep '/' (PatchedFile.path f).data, comp ≠ [] ∧ comp ≠ ['.']))
    (ht2 : ∀ g ∈ d2,
      articleNameMatch ((fileNameC (PatchedFile.path g).data).getD []) = true ∧
      (Article.from_file_path (PatchedFile.path g)).language ≠ "en" ∧
      (∀ comp ∈ splitSep '/' (PatchedFile.path g).data, comp ≠ [] ∧ comp ≠ ['.']))
    (hdisj : ∀ f ∈ d1, ∀ g ∈ d2, PatchedFile.path f ≠ PatchedFile.path g) :
    comparePullsOn p q d1 d2 = [] := by
  have hfold : cmpFold d1 d2 = ⟨[], [], false⟩ := by
    unfold cmpFold
    apply foldl_fixed
    intro st f hf
    apply foldl_fixed
    intro st' o ho
    have hfmem : f ∈ d1 := (List.mem_filter.mp hf).1
    obtain ⟨g, hg, rfl⟩ : ∃ g ∈ d2, PatchedFile.path g = o := by
      rcases mem_setOfList _ _ _ ho with h | h
      · simp at h
      · rcases List.mem_map.mp h with ⟨g, hgf, hgp⟩
        exact ⟨g, (List.mem_filter.mp hgf).1, hgp⟩
    exact cmpStep_no_op _ _ st' _
      (ht1 f hfmem).1 (ht1 f hfmem).2.1 (ht1 f hfmem).2.2
      (ht2 g hg).1 (ht2 g hg).2.1 (ht2 g hg).2.2
      (hdisj f hfmem g hg)
  simp only [comparePullsOn, hfold]
  rfl

/-- C7: two pulls whose diffs touch only translated article files —
article markdown whose language is not `"en"`, with canonical
slash-separated paths — and that share no file path produce no conflicts
in either argument order. -/
theorem sibling_translations_no_conflict (p q : PullRequest) (d1 d2 : Diff)
    (hp : p.diff = some d1) (hq : q.diff = some d2)
    (ht1 : ∀ f ∈ d1,
      articleNameMatch ((fileNameC (PatchedFile.path f).data).getD []) = true ∧
      (Article.from_file_path (PatchedFile.path f)).language ≠ "en" ∧
      (∀ comp ∈ splitSep '/' (PatchedFile.path f).data, comp ≠ [] ∧ comp ≠ ['.']))
    (ht2 : ∀ g ∈ d2,
      articleNameMatch ((fileNameC (PatchedFile.path g).data).getD []) = true ∧
      (Article.from_file_path (PatchedFile.path g)).language ≠ "en" ∧
      (∀ comp ∈ splitSep '/' (PatchedFile.path g).data, comp ≠ [] ∧ comp ≠ ['.']))
    (hdisj : ∀ f ∈ d1, ∀ g ∈ d2, PatchedFile.path f ≠ PatchedFile.path g) :
    compare_pulls p q = some [] ∧ compare_pulls q p = some [] := by
  constructor
  · rw [compare_pulls_some p q d1 d2 hp hq]
    rw [comparePullsOn_translations_empty p q d1 d2 ht1 ht2 hdisj]
  · rw [compare_pulls_some q p d2 d1 hq hp]
    rw [comparePullsOn_translations_empty q p d2 d1 ht2 ht1
      (fun g hg f hf => (hdisj f hf g hg).symm)]

/-- C7, witness: scenario S2 — a Russian and a Korean translation of the
same article produce no conflicts in either order. -/
theorem sibling_translations_no_conflict_witness :
    compare_pulls exRu exKo = some [] ∧ compare_pulls exKo exRu = some [] :=
  sibling_translations_no_conflict exRu exKo
    (["wiki/Article/ru.md"].map diffFile) (["wiki/Article/ko.md"].map diffFile)
    rfl rfl
    (by
      intro f hf
      simp only [List.map_cons, List.map_nil, List.mem_singleton] at hf
      subst hf
      exact ⟨by decide, by decide, by decide⟩)
    (by
      intro g hg
      simp only [List.map_cons, List.map_nil, List.mem_singleton] at hg
      subst hg
      exact ⟨by decide, by decide, by decide⟩)
    (by
      intro f hf g hg
      simp only [List.map_cons, List.map_nil, List.mem_singleton] at hf hg
      subst hf
      subst hg
      decide)

/-! ### Store-stability lemmas for the refresh loop -/

theorem get?_eq_none_del {k : Type} {a : Type} [DecidableEq k]
    (m : List (k × a)) (key : k) (h : HMap.get? m key = none) :
    HMap.del m key = m := by
  induction m with
  | nil => rfl
  | cons e es ih =>
    by_cases he : e.1 = key
    · rw [HMap.get?, if_pos he] at h
      exact absurd h (by simp)
    · rw [HMap.get?, if_neg he] at h
      have hd := ih h
      unfold HMap.del at hd ⊢
      rw [List.filter_cons, if_pos (by simp [he]), hd]

theorem get?_eq_none_swap {k : Type} {a : Type} [DecidableEq k]
    (m : List (k × a)) (key : k) (v : a) (h : HMap.get? m key = none) :
    HMap.swap m key v = m := by
  induction m with
  | nil => rfl
  | cons e es ih =>
    by_cases he : e.1 = key
    · rw [HMap.get?, if_pos he] at h
      exact absurd h (by simp)
    · rw [HMap.get?, if_neg he] at h
      have hd := ih h
      unfold HMap.swap at hd ⊢
      rw [List.map_cons, if_neg he, hd]

theorem get?_mem_keys {k : Type} {a : Type} [DecidableEq k]
    (m : List (k × a)) (key : k) (v : a) (h : HMap.get? m key = some v) :
    key ∈ m.map Prod.fst := by
  induction m with
  | nil => simp [HMap.get?] at h
  | cons e es ih =>
    by_cases he : e.1 = key
    · rw [List.map_cons]
      exact he ▸ List.mem_cons_self e.1 _
    · rw [HMap.get?, if_neg he] at h
      exact List.mem_cons_of_mem _ (ih h)

theorem swap_self_nodup {k : Type} {a : Type} [DecidableEq k]
    (m : List (k × a)) (key : k) (v : a)
    (hwf : (m.map Prod.fst).Nodup) (h : HMap.get? m key = some v) :
    HMap.swap m key v = m := by
  induction m with
  | nil => simp [HMap.get?] at h
  | cons e es ih =>
    rw [List.map_cons, List.nodup_cons] at hwf
    by_cases he : e.1 = key
    · rw [HMap.get?, if_pos he] at h
      have hv : e.2 = v := by
        injection h
      have habs : HMap.get? es key = none := by
        cases hg : HMap.get? es key with
        | none => rfl
        | some w => exact absurd (he ▸ get?_mem_keys es key w hg) hwf.1
      have htl := get?_eq_none_swap es key v habs
      unfold HMap.swap at htl ⊢
      rw [List.map_cons, if_pos he, htl]
      obtain ⟨e1, e2⟩ := e
      simp only at he hv
      rw [he, hv]
    · rw [HMap.get?, if_neg he] at h
      have htl := ih hwf.2 h
      unfold HMap.swap at htl ⊢
      rw [List.map_cons, if_neg he, htl]

theorem setRepo_self_nodup (st : Storage) (repo : String) (m : RepoConflicts)
    (hwf : (st.map Prod.fst).Nodup) (h : Storage.repoOf st repo = some m) :
    Storage.setRepo st repo m = st := by
  unfold Storage.setRepo HMap.put
  unfold Storage.repoOf at h
  rw [h]
  exact swap_self_nodup st repo m hwf h

theorem foldl_del_absent {k : Type} {a : Type} [DecidableEq k]
    (l : List k) (m : List (k × a)) (h : ∀ key ∈ l, HMap.get? m key = none) :
    l.foldl HMap.del m = m := by
  induction l with
  | nil => rfl
  | cons x xs ih =>
    rw [List.foldl_cons, get?_eq_none_del m x (h x (List.mem_cons_self x xs))]
    exact ih (fun key hk => h key (List.mem_cons_of_mem x hk))

theorem foldl_flatMap {α β γ : Type} (g : β → List γ) (f : α → γ → α)
    (l : List β) (a : α) :
    (l.flatMap g).foldl f a = l.foldl (fun a o => (g o).foldl f a) a := by
  induction l generalizing a with
  | nil => rfl
  | cons x xs ih => simp [List.flatMap_cons, List.foldl_append, ih]

theorem filter_flatMap {β γ : Type} (g : β → List γ) (p : γ → Bool) (l : List β) :
    (l.flatMap g).filter p = l.flatMap (fun o => (g o).filter p) := by
  induction l with
  | nil => rfl
  | cons x xs ih => simp [List.flatMap_cons, List.filter_append, ih]

theorem processConflict_fold (repo : String) (nn : Int) (kind : ConflictType)
    (detected : List Conflict) (rem : PendMap) (st : Storage)
    (hstored : ∀ c ∈ detected, Storage.find st repo c.key = some c)
    (hguard : ∀ c ∈ detected, merge_guard kind nn c = false) :
    ∀ pend : PendMap,
      detected.foldl (processConflict repo nn kind) ⟨pend, rem, st⟩ =
        ⟨(detected.filter (fun c => c.kind = kind)).foldl
            (fun m c => pushEntry m c.trigger c) pend, rem, st⟩ := by
  induction detected with
  | nil => intro pend; rfl
  | cons c cs ih =>
    intro pend
    have hup : Storage.upsert st repo c = (none, st) := by
      have h := hstored c (List.mem_cons_self c cs)
      rw [storage_find_getD] at h
      simp only [Storage.upsert, h]
      simp
    have hpc : processConflict repo nn kind ⟨pend, rem, st⟩ c =
        ⟨if c.kind = kind then pushEntry pend c.trigger c else pend, rem, st⟩ := by
      unfold processConflict
      rw [hguard c (List.mem_cons_self c cs)]
      simp only [Bool.false_eq_true, if_false, hup]
      by_cases hk : c.kind = kind
      · simp [hk]
      · simp [hk]
    rw [List.foldl_cons, hpc]
    have ih' := ih
      (fun c' hc' => hstored c' (List.mem_cons_of_mem c hc'))
      (fun c' hc' => hguard c' (List.mem_cons_of_mem c hc'))
    by_cases hk : c.kind = kind
    · rw [if_pos hk, ih' (pushEntry pend c.trigger c),
        List.filter_cons_of_pos (by simp [hk]), List.foldl_cons]
    · rw [if_neg hk, ih' pend, List.filter_cons_of_neg (by simp [hk])]

theorem processOther_stable (repo : String) (new_pull : PullRequest)
    (kind : ConflictType) (o : PullRequest) (pend rem : PendMap) (st : Storage)
    (hwf : (st.map Prod.fst).Nodup)
    (hdiff : (compare_pulls new_pull o).isSome)
    (hstored : ∀ c ∈ (compare_pulls new_pull o).getD [],
      Storage.find st repo c.key = some c)
    (hclean : ∀ key ∈ [make_conflict_key o.number new_pull.number .Overlap,
        make_conflict_key o.number new_pull.number .IncompleteTranslation],
      key ∉ ((compare_pulls new_pull o).getD []).map Conflict.key →
        Storage.find st repo key = none)
    (hguard : ∀ c ∈ (compare_pulls new_pull o).getD [],
      merge_guard kind new_pull.number c = false) :
    processOther repo new_pull kind ⟨pend, rem, st⟩ o =
      some ⟨(((compare_pulls new_pull o).getD []).filter
          (fun c => c.kind = kind)).foldl (fun m c => pushEntry m c.trigger c) pend,
        rem, st⟩ := by
  obtain ⟨detected, hdet⟩ := Option.isSome_iff_exists.mp hdiff
  rw [hdet] at hstored hclean hguard ⊢
  simp only [Option.getD_some] at hstored hclean hguard ⊢
  have hrm : Storage.remove_missing st repo o.number new_pull.number detected =
      ([], st) := by
    cases hrep : Storage.repoOf st repo with
    | none =>
      unfold Storage.remove_missing
      rw [hrep]
    | some m =>
      have habs : ∀ key ∈ ([make_conflict_key o.number new_pull.number .Overlap,
          make_conflict_key o.number new_pull.number
            .IncompleteTranslation].filter
              (fun key => ¬ (detected.map Conflict.key).contains key)),
          HMap.get? m key = none := by
        intro key hk
        rw [List.mem_filter] at hk
        have h2 : key ∉ detected.map Conflict.key := by
          intro hmem
          have h3 := hk.2
          simp [hmem] at h3
        have h4 := hclean key hk.1 h2
        unfold Storage.find at h4
        rw [hrep] at h4
        exact h4
      have hrem : List.filterMap (Storage.rcFind m)
          ([make_conflict_key o.number new_pull.number .Overlap,
            make_conflict_key o.number new_pull.number
              .IncompleteTranslation].filter
                (fun key => ¬ (detected.map Conflict.key).contains key)) = [] :=
        List.filterMap_eq_nil_iff.mpr (fun key hk => habs key hk)
      have hdel : Storage.setRepo st repo
          (List.foldl HMap.del m
            ([make_conflict_key o.number new_pull.number .Overlap,
              make_conflict_key o.number new_pull.number
                .IncompleteTranslation].filter
                  (fun key => ¬ (detected.map Conflict.key).contains key))) = st := by
        rw [foldl_del_absent _ m habs]
        exact setRepo_self_nodup st repo m hwf hrep
      simp only [Storage.remove_missing, hrep]
      rw [hrem, hdel]
  simp only [processOther, hdet, Option.map, hrm]
  simp only [List.foldl_nil]
  rw [processConflict_fold repo new_pull.number kind detected rem st hstored hguard pend]


theorem refresh_loop_char (st : Storage) (repo : String) (new_pull : PullRequest)
    (kind : ConflictType) (pulls : List PullRequest)
    (hwf : (st.map Prod.fst).Nodup)
    (hdiffs : ∀ o ∈ pulls, (compare_pulls new_pull o).isSome)
    (hstored : ∀ o ∈ pulls, ∀ c ∈ (compare_pulls new_pull o).getD [],
      Storage.find st repo c.key = some c)
    (hclean : ∀ o ∈ pulls, ∀ key ∈ [make_conflict_key o.number new_pull.number .Overlap,
        make_conflict_key o.number new_pull.number .IncompleteTranslation],
      key ∉ ((compare_pulls new_pull o).getD []).map Conflict.key →
        Storage.find st repo key = none)
    (hguard : ∀ o ∈ pulls, ∀ c ∈ (compare_pulls new_pull o).getD [],
      merge_guard kind new_pull.number c = false) :
    ∀ pend rem : PendMap,
      pulls.foldl
        (fun acc other => acc.bind (fun a => processOther repo new_pull kind a other))
        (some ⟨pend, rem, st⟩) =
      some ⟨pulls.foldl
          (fun p o => (((compare_pulls new_pull o).getD []).filter
            (fun c => c.kind = kind)).foldl (fun m c => pushEntry m c.trigger c) p)
          pend, rem, st⟩ := by
  induction pulls with
  | nil => intro pend rem; rfl
  | cons o os ih =>
    intro pend rem
    simp only [List.foldl_cons, Option.some_bind]
    rw [processOther_stable repo new_pull kind o pend rem st hwf
      (hdiffs o (List.mem_cons_self o os))
      (hstored o (List.mem_cons_self o os))
      (hclean o (List.mem_cons_self o os))
      (hguard o (List.mem_cons_self o os))]
    exact ih
      (fun o' ho' => hdiffs o' (List.mem_cons_of_mem o ho'))
      (fun o' ho' => hstored o' (List.mem_cons_of_mem o ho'))
      (fun o' ho' => hclean o' (List.mem_cons_of_mem o ho'))
      (fun o' ho' => hguard o' (List.mem_cons_of_mem o ho')) _ _

/-- C1, counterexample.  After pulls #1 and #2 (both touching the same
original article) have been processed once, replaying the event for pull
#2 re-detects the stored overlap, `upsert` returns `None` — and the
conflict **is** added to `to_update` nonetheless, so the second pass hands
the reconciler the same map again and it issues an update write (comment
50 is edited; zero additional writes is false). -/
theorem refresh_replay_pending_not_empty :
    refresh_conflicts [] "test/repo" [exP1, exP2] exP2 ConflictType.Overlap =
      some ([(2, [exOverlap])], [], exStore1) ∧
    refresh_conflicts exStore1 "test/repo" [exP1, exP2] exP2 ConflictType.Overlap =
      some ([(2, [exOverlap])], [], exStore1) ∧
    updateIds (send_updates "test-app" true exForgeC1 [(2, [exOverlap])] []) = [50] ∧
    postPulls (send_updates "test-app" true exForgeC1 [(2, [exOverlap])] []) = [] := by
  refine ⟨?_, ?_, ?_, ?_⟩ <;> rfl

/-- C1, amended: when `upsert` returns `None` for a detected conflict, the
conflict is still added to `to_update` whenever its kind equals
`kind_to_match`; consequently, replaying an event whose conflicts are all
already stored unchanged (and not hit by the merge guard) yields the full
matching-kind conflict set in `to_update` again — grouped by trigger —
with nothing removed and the store unchanged, so the reconciler issues
update writes rather than none on the second pass. -/
theorem refresh_upsert_none_still_pending (st : Storage) (repo : String)
    (pulls_map : List PullRequest) (new_pull : PullRequest) (kind : ConflictType)
    (hwf : (st.map Prod.fst).Nodup)
    (hdiffs : ∀ o ∈ refreshOrder pulls_map new_pull, (compare_pulls new_pull o).isSome)
    (hstored : ∀ o ∈ refreshOrder pulls_map new_pull,
      ∀ c ∈ (compare_pulls new_pull o).getD [], Storage.find st repo c.key = some c)
    (hclean : ∀ o ∈ refreshOrder pulls_map new_pull,
      ∀ key ∈ [make_conflict_key o.number new_pull.number .Overlap,
        make_conflict_key o.number new_pull.number .IncompleteTranslation],
      key ∉ ((compare_pulls new_pull o).getD []).map Conflict.key →
        Storage.find st repo key = none)
    (hguard : ∀ o ∈ refreshOrder pulls_map new_pull,
      ∀ c ∈ (compare_pulls new_pull o).getD [],
        merge_guard kind new_pull.number c = false) :
    refresh_conflicts st repo pulls_map new_pull kind =
      some (groupByTrigger (((refreshOrder pulls_map new_pull).flatMap
          (fun o => (compare_pulls new_pull o).getD [])).filter
            (fun c => c.kind = kind)), [], st) := by
  simp only [refresh_conflicts]
  rw [refresh_loop_char st repo new_pull kind _ hwf hdiffs hstored hclean hguard [] []]
  simp only [Option.map]
  unfold groupByTrigger
  rw [filter_flatMap, foldl_flatMap]

/-- C1, witness for the amended theorem: the replay of pull #2's event. -/
theorem refresh_upsert_none_still_pending_witness :
    refresh_conflicts exStore1 "test/repo" [exP1, exP2] exP2 ConflictType.Overlap =
      some (groupByTrigger (((refreshOrder [exP1, exP2] exP2).flatMap
          (fun o => (compare_pulls exP2 o).getD [])).filter
            (fun c => c.kind = ConflictType.Overlap)), [], exStore1) :=
  refresh_upsert_none_still_pending exStore1 "test/repo" [exP1, exP2] exP2
    ConflictType.Overlap (by decide) (by decide) (by decide) (by decide) (by decide)

/-! ### Reference-map lemmas for the comment reconciler -/

theorem buildRefs_inner (cs : List IssueComment) (refs : RefMap) :
    cs.foldl
      (fun refs c =>
        match CommentHeader.from_comment c.body with
        | some h => fun k =>
            if k = (h.pull_number, h.conflict_type) then some c else refs k
        | none => refs)
      refs =
    refInsertAll
      (cs.filterMap (fun c => (CommentHeader.from_comment c.body).map
        (fun h => ((h.pull_number, h.conflict_type), c))))
      refs := by
  induction cs generalizing refs with
  | nil => rfl
  | cons c cs ih =>
    rw [List.foldl_cons, List.filterMap_cons]
    cases hfc : CommentHeader.from_comment c.body with
    | none => exact ih refs
    | some h =>
      simp only [Option.map]
      rw [show refInsertAll (((h.pull_number, h.conflict_type), c) :: cs.filterMap _)
          refs = refInsertAll (cs.filterMap _)
            (fun k => if k = ((h.pull_number, h.conflict_type),
              c).1 then some ((h.pull_number, h.conflict_type), c).2 else refs k)
        from rfl]
      exact ih _

theorem buildRefs_eq_inserts (slug : String) (forge : Forge) (keys : List Int) :
    buildRefs slug forge keys =
      refInsertAll (headerInserts slug forge keys) (fun _ => none) := by
  unfold buildRefs headerInserts refInsertAll
  rw [foldl_flatMap]
  generalize (fun _ : Int × ConflictType => (none : Option IssueComment)) = refs
  induction keys generalizing refs with
  | nil => rfl
  | cons pn ks ih =>
    rw [List.foldl_cons, List.foldl_cons]
    rw [buildRefs_inner _ refs]
    exact ih _

theorem refInsertAll_lookup (l : List ((Int × ConflictType) × IssueComment))
    (refs : RefMap) (k : Int × ConflictType) :
    refInsertAll l refs k =
      match (l.filter (fun e => e.1 = k)).getLast? with
      | some e => some e.2
      | none => refs k := by
  induction l generalizing refs with
  | nil => rfl
  | cons e es ih =>
    rw [show refInsertAll (e :: es) refs =
        refInsertAll es (fun k => if k = e.1 then some e.2 else refs k) from rfl]
    rw [ih]
    by_cases hk : e.1 = k
    · rw [List.filter_cons_of_pos (by simp [hk])]
      cases hl : (es.filter (fun e => e.1 = k)).getLast? with
      | none =>
        have hnil : es.filter (fun e => e.1 = k) = [] :=
          List.getLast?_eq_none_iff.mp hl
        rw [hnil]
        simp [hk]
      | some e' =>
        cases hes : es.filter (fun e => e.1 = k) with
        | nil => rw [hes] at hl; simp at hl
        | cons b l' =>
          rw [hes] at hl
          rw [List.getLast?_cons_cons, hl]
    · rw [List.filter_cons_of_neg (by simp [hk])]
      cases (es.filter (fun e => e.1 = k)).getLast? with
      | none => exact if_neg (fun hke => hk hke.symm)
      | some e' => rfl

/-- C2, counterexample.  Pulls #5 and #6 each carry their own bot comment
with the same header `(1, IncompleteTranslation)` (ids 50 and 60) and both
appear as triggers in `to_update`.  The reconciler's reference map is one
shared `HashMap` over all affected pulls, so the lookup for trigger #5
resolves to pull #6's comment: both updates edit comment 60, comment 50 on
pull #5 is never edited, and no comment is created on pull #5 even though
the claim requires the edit to land on the PR being notified. -/
theorem send_updates_shared_map_cross_update :
    updateIds (send_updates "test-app" true exForgeC2 [(5, [exIt5]), (6, [exIt6])] []) =
      [60, 60] ∧
    postPulls (send_updates "test-app" true exForgeC2 [(5, [exIt5]), (6, [exIt6])] []) =
      [] ∧
    deleteIds (send_updates "test-app" true exForgeC2 [(5, [exIt5]), (6, [exIt6])] []) =
      [] ∧
    (exForgeC2.comments 5).map IssueComment.id = [50] ∧
    has_control_over "test-app" (botComment 50 1 ConflictType.IncompleteTranslation).user =
      true ∧
    CommentHeader.from_comment
        (botComment 50 1 ConflictType.IncompleteTranslation).body =
      some ⟨1, ConflictType.IncompleteTranslation⟩ := by
  exact ⟨rfl, rfl, rfl, rfl, rfl, rfl⟩

/-- C2, amended: the bot-owned comments of **all** affected PRs build one
shared mapping from `(original_pull, kind)` to a comment, later scans
overwriting earlier ones; a lookup resolves within that shared map, so
when exactly one processed PR holds a bot comment with the header the
update edits that comment, a create happens exactly when no processed PR
holds one, and when two trigger PRs hold conflicts with the same
`(original, kind)` one PR's update is routed to the other PR's comment. -/
theorem send_updates_unique_header_targets (slug : String) (forge : Forge)
    (t : Int) (u : Conflict) :
    (∀ keys k, buildRefs slug forge keys k =
      match ((headerInserts slug forge keys).filter (fun e => e.1 = k)).getLast? with
      | some e => some e.2
      | none => none) ∧
    (∀ c0, (headerInserts slug forge [t]).filter
        (fun e => e.1 = (u.original, u.kind)) = [((u.original, u.kind), c0)] →
      send_updates slug true forge [(t, [u])] [] =
        [WriteAction.update c0.id u.to_markdown]) ∧
    ((headerInserts slug forge [t]).filter
        (fun e => e.1 = (u.original, u.kind)) = [] →
      send_updates slug true forge [(t, [u])] [] =
        [WriteAction.post t u.to_markdown]) := by
  have hchar : ∀ keys k, buildRefs slug forge keys k =
      match ((headerInserts slug forge keys).filter (fun e => e.1 = k)).getLast? with
      | some e => some e.2
      | none => none := by
    intro keys k
    rw [buildRefs_eq_inserts, refInsertAll_lookup]
  refine ⟨hchar, ?_, ?_⟩
  · intro c0 hone
    have href : buildRefs slug forge [t] (u.original, u.kind) = some c0 := by
      rw [hchar [t] (u.original, u.kind), hone]
      rfl
    simp only [send_updates, List.map_cons, List.map_nil, List.flatMap_nil,
      List.flatMap_cons, List.append_nil, List.nil_append, href, if_true]
  · intro hnone
    have href : buildRefs slug forge [t] (u.original, u.kind) = none := by
      rw [hchar [t] (u.original, u.kind), hnone]
      rfl
    simp only [send_updates, List.map_cons, List.map_nil, List.flatMap_nil,
      List.flatMap_cons, List.append_nil, List.nil_append, href, if_true]

/-- C2, witness for the amended theorem: with only pull #5 processed, the
unique comment 50 with header `(1, IncompleteTranslation)` is the update
target, and with no matching comment a create lands on the trigger PR. -/
theorem send_updates_unique_header_targets_witness :
    send_updates "test-app" true exForgeC2 [(5, [exIt5])] [] =
      [WriteAction.update 50 exIt5.to_markdown] ∧
    send_updates "test-app" true exForgeC2 [(7, [exIt5])] [] =
      [WriteAction.post 7 exIt5.to_markdown] :=
  ⟨(send_updates_unique_header_targets "test-app" exForgeC2 5 exIt5).2.1
      (botComment 50 1 ConflictType.IncompleteTranslation) (by decide),
   (send_updates_unique_header_targets "test-app" exForgeC2 7 exIt5).2.2 (by decide)⟩

/-- C3, counterexample.  Pull #1 is merged with a diff that no longer
touches articles while the store still holds the overlap against pull #2,
whose stale bot comment (id 70) sits on the forge.  The refresh pass
produces an empty update map and a nonempty removal map; the reconciler
would issue the deletion of comment 70 — but `finalize_pull` only calls
the reconciler when the update map is nonempty, so no write is issued at
all, contradicting "comment deletions for the removal set are issued even
when the update set is empty". -/
theorem finalize_skips_removals_without_updates :
    exP1Merged.is_merged = true ∧
    (refresh_conflicts exStore1 "test/repo" [exP1Merged, exP2] exP1Merged
        ConflictType.IncompleteTranslation).map (fun r => (r.1, r.2.1)) =
      some ([], [(2, [exOverlap])]) ∧
    deleteIds (send_updates "test-app" true exForgeC3 [] [(2, [exOverlap])]) = [70] ∧
    (finalize_pull "test-app" true exForgeC3 exMemC3 exStore1 "test/repo"
        exP1Merged).map (fun r => r.1) = some [] := by
  exact ⟨rfl, rfl, rfl, rfl⟩

/-- C3, amended: `finalize_pull` on a merged pull whose repository has
cached pulls loads the diff from the cache or a fresh fetch, runs
`refresh_conflicts` with kind `IncompleteTranslation`, and reconciles the
resulting updates and removals **only when the update map is nonempty**
(deletions for the removal set are skipped when it is empty); in all
cases, merged or not, the pull is removed from the pull cache and
`remove_conflicts_by_pull` is run for its number. -/
theorem finalize_pull_behaviour (slug : String) (postc : Bool) (forge : Forge)
    (mem : Memory) (st : Storage) (repo : String) (closed : PullRequest) :
    (∀ pm cached pend rem st',
      closed.is_merged = true →
      Memory.pulls mem repo = some pm →
      Memory.rpFind pm closed.number = some cached →
      refresh_conflicts st repo (pm.map Prod.snd) cached
        ConflictType.IncompleteTranslation = some (pend, rem, st') →
      finalize_pull slug postc forge mem st repo closed =
        some (if pend.isEmpty then [] else send_updates slug postc forge pend rem,
          Memory.remove_pull mem repo cached,
          Storage.remove_conflicts_by_pull st' repo cached.number)) ∧
    (∀ pm pend rem st',
      closed.is_merged = true →
      Memory.pulls mem repo = some pm →
      Memory.rpFind pm closed.number = none →
      refresh_conflicts st repo (pm.map Prod.snd)
          { closed with diff := forge.pullDiff closed.number }
          ConflictType.IncompleteTranslation = some (pend, rem, st') →
      finalize_pull slug postc forge mem st repo closed =
        some (if pend.isEmpty then [] else send_updates slug postc forge pend rem,
          Memory.remove_pull mem repo { closed with diff := forge.pullDiff closed.number },
          Storage.remove_conflicts_by_pull st' repo closed.number)) ∧
    (closed.is_merged = true →
      Memory.pulls mem repo = none →
      finalize_pull slug postc forge mem st repo closed =
        some ([], Memory.remove_pull mem repo closed,
          Storage.remove_conflicts_by_pull st repo closed.number)) ∧
    (closed.is_merged = false →
      finalize_pull slug postc forge mem st repo closed =
        some ([], Memory.remove_pull mem repo closed,
          Storage.remove_conflicts_by_pull st repo closed.number)) := by
  refine ⟨?_, ?_, ?_, ?_⟩
  · intro pm cached pend rem st' hm hpm hc href
    simp only [finalize_pull, hm, if_true, hpm, hc, href, Option.map]
  · intro pm pend rem st' hm hpm hc href
    simp only [finalize_pull, hm, if_true, hpm, hc, href, Option.map]
  · intro hm hpm
    simp only [finalize_pull, hm, if_true, hpm]
  · intro hm
    simp only [finalize_pull, hm, Bool.false_eq_true, if_false]

/-- C3, witness: the cached-merged branch of the amended theorem at the
counterexample scenario. -/
theorem finalize_pull_behaviour_witness :
    finalize_pull "test-app" true exForgeC3 exMemC3 exStore1 "test/repo" exP1Merged =
      some ([], Memory.remove_pull exMemC3 "test/repo" exP1Merged,
        Storage.remove_conflicts_by_pull [("test/repo", [])] "test/repo"
          exP1Merged.number) :=
  (finalize_pull_behaviour "test-app" true exForgeC3 exMemC3 exStore1 "test/repo"
      exP1Merged).1
    [(1, exP1Merged), (2, exP2)] exP1Merged [] [(2, [exOverlap])]
    [("test/repo", [])] rfl rfl rfl rfl
end Observatory
